import Mathlib

/-!
Shallow embedding of the replic-sqlite replication core.

Sources:
* the hybrid logical clock module (hlc.js),
* the keep_last SQLite aggregate extension (keep_last.c),
* the main replication module (index.js: upsert, migrate, peer stats,
  gap detection, debounced merge applier, session tokens, peer sockets).

JavaScript numbers that hold 53-bit non-negative quantities are modelled as
Nat; fields that the source initialises to -1 (lastSequenceId,
lastPatchAtTimestamp) are modelled as Int.
-/

namespace ReplicSqlite

/-! ## Hybrid logical clock (hlc.js)

State of the module-level variables highestRemoteHLC, counter and
clockDriftHLC.  An HLC value packs (wallMs - UNIX_TIMESTAMP_OFFSET) in the
bits above 13 and a counter in the low 13 bits. -/

def UNIX_TIMESTAMP_OFFSET : Nat := 1735689600000

def MAX_SAFE_INTEGER : Nat := 2 ^ 53 - 1

structure HlcState where
  highestRemoteHLC : Nat
  counter : Nat
  clockDriftHLC : Nat
  deriving Repr, DecidableEq

def hlcInit : HlcState := { highestRemoteHLC := 0, counter := 0, clockDriftHLC := 0 }

/-- toTimestamp: extract the high bits of the HLC (BigInt(hlc) >> 13n). -/
def hlcToTimestamp (hlc : Nat) : Nat := hlc / 8192

/-- toCounter: extract the low 13 bits of the HLC. -/
def hlcToCounter (hlc : Nat) : Nat := hlc % 8192

/-- toUnixTimestamp: high bits plus the epoch offset. -/
def hlcToUnixTimestamp (hlc : Nat) : Nat := hlcToTimestamp hlc + UNIX_TIMESTAMP_OFFSET

/-- The wall clock relative to the HLC epoch (clamped at zero, as in the
Nat model of the 53-bit arithmetic; real runs have wallMs after 2025). -/
def epochDiff (wallMs : Nat) : Nat := ((wallMs : Int) - (UNIX_TIMESTAMP_OFFSET : Int)).toNat

/-- from(unixTimestamp, counter): (ts - offset) * 2^13 + counter. -/
def hlcFrom (unixTimestamp : Nat) (counter : Nat := 0) : Nat :=
  epochDiff unixTimestamp * 8192 + counter

/-- receive(remoteHLC): if the remote HLC is ahead, adopt it, zeroing the
counter when its wall-clock part is strictly ahead. -/
def hlcReceive (remoteHLC : Nat) (s : HlcState) : HlcState :=
  if remoteHLC > s.highestRemoteHLC then
    { s with
      counter := if hlcToTimestamp remoteHLC > hlcToTimestamp s.highestRemoteHLC
                 then 0 else s.counter,
      highestRemoteHLC := remoteHLC }
  else s

/-- create(): reads the wall clock (passed here as the wallMs argument) and
returns the new HLC value together with the updated module state. -/
def hlcCreate (wallMs : Nat) (s : HlcState) : Nat × HlcState :=
  let now := epochDiff wallMs * 8192
  if now > s.highestRemoteHLC then
    (now, { s with counter := 0 })
  else
    let c := s.counter + 1
    (s.highestRemoteHLC + c,
     { s with counter := c, clockDriftHLC := s.highestRemoteHLC - now })

/-- An event of the HLC module: either a remote HLC is received, or create()
is called while the wall clock reads wallMs. -/
inductive HlcEv where
  | recv (remoteHLC : Nat)
  | mk (wallMs : Nat)
  deriving Repr, DecidableEq

/-- Run a list of HLC events from a starting state. -/
def hlcRun : List HlcEv → HlcState → HlcState
  | [], s => s
  | .recv r :: t, s => hlcRun t (hlcReceive r s)
  | .mk ms :: t, s => hlcRun t ((hlcCreate ms s).2)

/-- The values handed to receive() in a list of events. -/
def hlcReceivedIn (evs : List HlcEv) : List Nat :=
  evs.foldr (fun e acc =>
    match e with
    | .recv r => r :: acc
    | .mk _ => acc) []

/-- The outputs of the create() calls in a list of events, in order. -/
def hlcCreatedIn (evs : List HlcEv) (s : HlcState) : List Nat :=
  match evs with
  | [] => []
  | .recv r :: t => hlcCreatedIn t (hlcReceive r s)
  | .mk ms :: t =>
      let p := hlcCreate ms s
      p.1 :: hlcCreatedIn t p.2

/-- The counter values reached right after each event (used to talk about
counter overflow along a run). -/
def hlcCountersIn (evs : List HlcEv) (s : HlcState) : List Nat :=
  match evs with
  | [] => []
  | .recv r :: t =>
      let s2 := hlcReceive r s
      s2.counter :: hlcCountersIn t s2
  | .mk ms :: t =>
      let p := hlcCreate ms s
      p.2.counter :: hlcCountersIn t p.2

/-! ## keep_last aggregate (keep_last.c)

A shadow-table row as seen by the aggregate: the column value (NULL
modelled as none) and the (patchedAt, peerId, sequenceId) triple. -/

structure KLRow where
  value : Option Int
  patchedAt : Int
  peerId : Int
  sequenceId : Int
  deriving Repr, DecidableEq

/-- The aggregate context KeepLastCtx (sqlite3_aggregate_context is
zero-initialised, so the initial state has isInit = false, a NULL
last_value and zeroed triple). -/
structure KeepLastCtx where
  isInit : Bool
  last_value : Option Int
  patched_at : Int
  peer_id : Int
  sequence_id : Int
  deriving Repr, DecidableEq

def keepLastCtxInit : KeepLastCtx :=
  { isInit := false, last_value := none, patched_at := 0, peer_id := 0, sequence_id := 0 }

/-- The strict lexicographic comparison used by keep_last_step:
new_patched_at > p->patched_at, or equal and new_peer_id > p->peer_id, or
both equal and new_sequence_id > p->sequence_id. -/
def tripleGt (a b : Int × Int × Int) : Bool :=
  a.1 > b.1 || (a.1 == b.1 && (a.2.1 > b.2.1 || (a.2.1 == b.2.1 && a.2.2 > b.2.2)))

def rowTriple (r : KLRow) : Int × Int × Int := (r.patchedAt, r.peerId, r.sequenceId)

def ctxTriple (p : KeepLastCtx) : Int × Int × Int := (p.patched_at, p.peer_id, p.sequence_id)

/-- keep_last_step: the first invocation initialises the state with the
row's triple and value regardless of nullness; a later invocation replaces
the state iff the incoming value is non-NULL and its triple is strictly
greater than the state's. -/
def keep_last_step (p : KeepLastCtx) (r : KLRow) : KeepLastCtx :=
  if !p.isInit then
    { isInit := true, last_value := r.value,
      patched_at := r.patchedAt, peer_id := r.peerId, sequence_id := r.sequenceId }
  else if r.value.isSome && tripleGt (rowTriple r) (ctxTriple p) then
    { isInit := true, last_value := r.value,
      patched_at := r.patchedAt, peer_id := r.peerId, sequence_id := r.sequenceId }
  else p

/-- keep_last_finalize: the aggregate result is the stored value (SQL NULL
when the group was empty or the stored value is NULL). -/
def keep_last_finalize (p : KeepLastCtx) : Option Int := p.last_value

/-- The keep_last aggregate over a group of rows, folded in arrival order. -/
def keep_last (rows : List KLRow) : Option Int :=
  keep_last_finalize (rows.foldl keep_last_step keepLastCtxInit)

/-- The aggregate context holding exactly the value and triple of a row. -/
def ctxOfRow (r : KLRow) : KeepLastCtx :=
  { isInit := true, last_value := r.value,
    patched_at := r.patchedAt, peer_id := r.peerId, sequence_id := r.sequenceId }

/-- The rows of a group that keep_last can ever report: the first row of
the group and every subsequent row whose value is non-null. -/
def klCandidates (r : KLRow) (rs : List KLRow) : List KLRow :=
  r :: rs.filter (fun x => x.value.isSome)

/-! ## Session tokens (index.js: _generateSessionToken / _parseSessionToken)

The token is the JavaScript template string peerId + "." + sequenceId, so we
model decimal stringification of numbers and the relevant parts of
JavaScript's String.prototype.split(".") and parseInt. -/

def digitChar (d : Nat) : Char := Char.ofNat (48 + d)

def charDigitVal (c : Char) : Nat := c.toNat - 48

/-- Decimal digit characters of a positive number, most significant first;
structural recursion on a fuel argument bounded by the number itself. -/
def decCharsAux : Nat → Nat → List Char
  | 0, _ => []
  | _, 0 => []
  | fuel + 1, n + 1 => decCharsAux fuel ((n + 1) / 10) ++ [digitChar ((n + 1) % 10)]

/-- Decimal digit characters of a number, as JavaScript String(n) renders a
non-negative integer. -/
def decChars (n : Nat) : List Char :=
  if n = 0 then ['0'] else decCharsAux n n

/-- JavaScript String(n) for a non-negative number n. -/
def natToDecString (n : Nat) : String := ⟨decChars n⟩

/-- JavaScript String(i) for an integer (negative values get a minus sign). -/
def intToDecString (i : Int) : String :=
  match i with
  | .ofNat n => natToDecString n
  | .negSucc n => ⟨'-' :: decChars (n + 1)⟩

/-- _generateSessionToken(peerId, sequenceId): the template string
peerId + "." + sequenceId. -/
def generateSessionToken (peerId : Nat) (sequenceId : Int) : String :=
  natToDecString peerId ++ "." ++ intToDecString sequenceId

/-- String.prototype.split("."): cut the character list at every '.'. -/
def splitDot : List Char → List (List Char)
  | [] => [[]]
  | c :: cs =>
      match splitDot cs with
      | [] => [[]]
      | h :: t => if c = '.' then [] :: h :: t else (c :: h) :: t

/-- The whitespace characters skipped by parseInt. -/
def isJsSpace (c : Char) : Bool :=
  c = ' ' || c = '\t' || c = '\n' || c = '\r'

/-- The digit-prefix part of parseInt: the value of the longest leading run
of decimal digits, or none (NaN) if there is no leading digit. -/
def parseDigitPrefix (cs : List Char) : Option Nat :=
  let ds := cs.takeWhile Char.isDigit
  if ds.isEmpty then none
  else some (ds.foldl (fun a c => a * 10 + charDigitVal c) 0)

/-- JavaScript parseInt(s, 10): skip leading whitespace, honour an optional
sign, then read the longest decimal-digit prefix; none models NaN. -/
def jsParseInt (cs : List Char) : Option Int :=
  let cs1 := cs.dropWhile isJsSpace
  if cs1.head? = some '-' then (parseDigitPrefix cs1.tail).map (fun n => -(n : Int))
  else if cs1.head? = some '+' then (parseDigitPrefix cs1.tail).map (fun n => (n : Int))
  else (parseDigitPrefix cs1).map (fun n => (n : Int))

/-- _parseSessionToken: reject strings longer than 50 characters, split on
'.', parseInt both parts, and require two positive integers below
Number.MAX_SAFE_INTEGER together with exactly two parts. -/
def parseSessionToken (sessionToken : String) : Option (Int × Int) :=
  if sessionToken.length > 50 then none
  else
    match jsParseInt ((splitDot sessionToken.data).getD 0 []),
          jsParseInt ((splitDot sessionToken.data).getD 1 []) with
    | some p, some q =>
        if p > 0 && p < (MAX_SAFE_INTEGER : Int) && q > 0 && q < (MAX_SAFE_INTEGER : Int)
           && (splitDot sessionToken.data).length == 2
        then some (p, q) else none
    | _, _ => none

/-! ## Patches (wire form)

The at field of the source is a Lean keyword, so it is called patchAt here;
delta is the partial column mapping. -/

structure Patch where
  type : Nat
  patchAt : Nat
  peer : Nat
  seq : Int
  ver : Nat
  tab : String
  delta : List (String × Int)
  deriving Repr, DecidableEq

/-! ## Debounced merge applier (index.js: _onPatchReceivedFromPeers)

Per-table debounce state: debounceFromTimestamp starts at
Number.MAX_SAFE_INTEGER; the first inbound patch decrements it and schedules
one applyPatches call for the next event-loop turn; every inbound patch then
lowers it to the minimum patch timestamp; the flush applies from that value
and resets it. nbApplySchedules counts the setImmediate callbacks queued. -/

structure TableDebounce where
  debounceFromTimestamp : Nat
  nbApplySchedules : Nat
  deriving Repr, DecidableEq

def debounceInit : TableDebounce :=
  { debounceFromTimestamp := MAX_SAFE_INTEGER, nbApplySchedules := 0 }

/-- The debounce block run for one inbound remote patch with timestamp
patchAt (the tail of _onPatchReceivedFromPeers). -/
def debounceRecv (patchAt : Nat) (d : TableDebounce) : TableDebounce :=
  let d1 := if d.debounceFromTimestamp = MAX_SAFE_INTEGER then
              { debounceFromTimestamp := MAX_SAFE_INTEGER - 1,
                nbApplySchedules := d.nbApplySchedules + 1 }
            else d
  if patchAt < d1.debounceFromTimestamp then
    { d1 with debounceFromTimestamp := patchAt }
  else d1

/-- A burst of remote patches for one table between two event-loop yield
points, starting from the idle debounce state. -/
def debounceBurst (ats : List Nat) : TableDebounce :=
  ats.foldl (fun d a => debounceRecv a d) debounceInit

/-- The scheduled setImmediate callback: run applyPatches with the current
debounceFromTimestamp (returned as the first component) and reset the field
to Number.MAX_SAFE_INTEGER. -/
def debounceFlush (d : TableDebounce) : Nat × TableDebounce :=
  (d.debounceFromTimestamp, { d with debounceFromTimestamp := MAX_SAFE_INTEGER })

/-- The minimum of a list of timestamps (MAX_SAFE_INTEGER for an empty
list); the specification-side notion used to state the debounce claim. -/
def listMinAt : List Nat → Nat
  | [] => MAX_SAFE_INTEGER
  | a :: t => min a (listMinAt t)

/-! ## Peer stats, sockets, inbound processing and the gap scan (index.js)

PeerStat models the five-element stat array: indices 0..4 are
LAST_PATCH_AT_TIMESTAMP, LAST_SEQUENCE_ID,
GUARANTEED_CONTIGUOUS_PATCH_AT_TIMESTAMP, GUARANTEED_CONTIGUOUS_SEQUENCE_ID
and LAST_MESSAGE_TIMETSAMP. -/

structure PeerStat where
  lastAt : Nat
  lastSeq : Int
  guarAt : Nat
  guarSeq : Int
  lastMsgTs : Nat
  deriving Repr, DecidableEq

def peerStatInit : PeerStat :=
  { lastAt := 0, lastSeq := 0, guarAt := 0, guarSeq := 0, lastMsgTs := 0 }

/-- The whole in-memory state of one node that the transport, peer-stat and
patch-ingestion functions touch.  peerSockets maps peer ids to socket ids;
attachedSockets is the set of sockets carrying our message listener; shadow
holds the rows of every table_patches store tagged by table; pending holds
the rows of pending_patches; debounce holds each table's
debounceFromTimestamp. -/
structure NodeState where
  peerStats : List (Nat × PeerStat)
  peerSockets : List (Nat × Nat)
  attachedSockets : List Nat
  nbConnectedPeers : Int
  peerStartedNotSynced : List Nat
  tables : List String
  shadow : List (String × Patch)
  pending : List Patch
  debounce : List (String × Nat)
  hlc : HlcState
  deriving Repr, DecidableEq

/-- Point update of one peer's stat entry. -/
def updateStat (p : Nat) (f : PeerStat → PeerStat) (l : List (Nat × PeerStat)) :
    List (Nat × PeerStat) :=
  l.map (fun e => if e.1 = p then (e.1, f e.2) else e)

/-- onSynced(peerId): once a not-yet-synced peer has received at least one
message, drop it from peerStartedNotSynced (and emit the synced event,
which has no further effect on this state). -/
def onSyncedUpd (p : Nat) (s : NodeState) : NodeState :=
  if s.peerStartedNotSynced = [] then s
  else
    match List.lookup p s.peerStats with
    | some st =>
        if p ∈ s.peerStartedNotSynced ∧ st.lastMsgTs > 0 then
          { s with peerStartedNotSynced := s.peerStartedNotSynced.erase p }
        else s
    | none => s

/-- The rewrite of one peer-stat entry done by _detectMissingSequenceIds:
refresh liveness, advance the guaranteed-contiguous pair when the gap to
the incoming sequence is exactly 1, and record the highest sequence seen
(the gap is computed against the guaranteed-contiguous id, which the
liveness refresh does not touch). -/
def detectNewStat (now : Nat) (msg : Patch) (st0 : PeerStat) : PeerStat :=
  let st1 := { st0 with lastMsgTs := now }
  let st2 := if msg.seq - st0.guarSeq = 1 then
               { st1 with guarSeq := msg.seq, guarAt := msg.patchAt }
             else st1
  if msg.seq > st2.lastSeq then
    { st2 with lastSeq := msg.seq, lastAt := msg.patchAt }
  else st2

/-- _detectMissingSequenceIds(msg): receive the HLC; drop unknown peers;
otherwise rewrite the peer's stat entry via detectNewStat, firing onSynced
when the sequence was contiguous. -/
def detectMissingSequenceIds (now : Nat) (msg : Patch) (s : NodeState) : NodeState :=
  let s1 := { s with hlc := hlcReceive msg.patchAt s.hlc }
  match List.lookup msg.peer s1.peerStats with
  | none => s1
  | some st0 =>
      let s2 := { s1 with
                  peerStats := updateStat msg.peer (fun _ => detectNewStat now msg st0)
                    s1.peerStats }
      if msg.seq - st0.guarSeq = 1 then onSyncedUpd msg.peer s2 else s2

/-- The debounce block of _onPatchReceivedFromPeers applied to the stored
per-table debounceFromTimestamp (the scheduling side effect is the
setImmediate callback and is not part of this state). -/
def debounceUpd (tab : String) (patchAt : Nat) (s : NodeState) : NodeState :=
  let d := (List.lookup tab s.debounce).getD MAX_SAFE_INTEGER
  let d2 := (debounceRecv patchAt { debounceFromTimestamp := d, nbApplySchedules := 0 }).debounceFromTimestamp
  { s with debounce := s.debounce.map (fun e => if e.1 = tab then (tab, d2) else e) }

/-- _onPatchReceivedFromPeers(patch): drop own patches; stash
version-mismatched patches in pending_patches; save reserved-table patches
in pending_patches; save known-table patches in the shadow store and run
the debounce block; warn and drop patches for unknown tables.  In each kept
branch the save happens before _detectMissingSequenceIds, as in the
source. -/
def onPatchReceivedFromPeers (my dbVer : Nat) (now : Nat) (p : Patch) (s : NodeState) :
    NodeState :=
  if p.peer = my then s
  else if p.ver ≠ dbVer then
    detectMissingSequenceIds now p { s with pending := s.pending ++ [p] }
  else if p.tab = "_" then
    detectMissingSequenceIds now p { s with pending := s.pending ++ [p] }
  else if p.tab ∈ s.tables then
    let s1 := detectMissingSequenceIds now p { s with shadow := s.shadow ++ [(p.tab, p)] }
    debounceUpd p.tab p.patchAt s1
  else s

/-! ### The gap scan (listMissingSequenceIds / _getMissingPatches) -/

/-- A row of some patch store as seen by the UNION ALL of the
listMissingSequenceIds query. -/
structure PatchRow where
  peer : Nat
  seq : Int
  rowAt : Nat
  deriving Repr, DecidableEq

/-- All persisted rows: every shadow store followed by pending_patches. -/
def allRows (s : NodeState) : List PatchRow :=
  s.shadow.map (fun e => { peer := e.2.peer, seq := e.2.seq, rowAt := e.2.patchAt })
    ++ s.pending.map (fun p => { peer := p.peer, seq := p.seq, rowAt := p.patchAt })

/-- The ORDER BY peerId, sequenceId comparison. -/
def rowLe (a b : PatchRow) : Bool :=
  a.peer < b.peer || (a.peer == b.peer && a.seq ≤ b.seq)

def insertRow (r : PatchRow) : List PatchRow → List PatchRow
  | [] => [r]
  | x :: xs => if rowLe r x then r :: x :: xs else x :: insertRow r xs

/-- Sorting by (peerId, sequenceId), modelling the SQL ordering. -/
def sortRows (l : List PatchRow) : List PatchRow := l.foldr insertRow []

/-- One row of the listMissingSequenceIds result: a stored row whose
next-by-lead sibling in the same peer partition leaves a gap of
nbMissingSequenceIds sequence ids. -/
structure GapInfo where
  peerId : Nat
  sequenceId : Int
  nbMissingSequenceIds : Int
  patchedAt : Nat
  deriving Repr, DecidableEq

/-- The lead(sequenceId) - sequenceId - 1 > 0 filter over the sorted rows:
adjacent rows of the same peer whose sequence ids are not contiguous. -/
def gapsOf : List PatchRow → List GapInfo
  | [] => []
  | [_] => []
  | a :: b :: t =>
      (if a.peer = b.peer ∧ b.seq - a.seq - 1 > 0 then
        [{ peerId := a.peer, sequenceId := a.seq,
           nbMissingSequenceIds := b.seq - a.seq - 1, patchedAt := a.rowAt }]
       else [])
      ++ gapsOf (b :: t)

/-- listMissingSequenceIds(fromTimestamp): rows of every patch store with
_patchedAt >= fromTimestamp and _peerId <> myPeerId, ordered by
(peerId, sequenceId), keeping the rows followed by a gap. -/
def listMissingSequenceIds (my : Nat) (fromTs : Nat) (rows : List PatchRow) :
    List GapInfo :=
  gapsOf (sortRows (rows.filter (fun r => decide (fromTs ≤ r.rowAt ∧ r.peer ≠ my))))

/-- One step of the _getMissingPatches loop over the ordered missing list:
the first gap of each known peer rewrites that peer's
guaranteed-contiguous pair (the accumulator also carries the set of peers
already updated during this pass). -/
def scanFoldStep (acc : List (Nat × PeerStat) × List Nat) (g : GapInfo) :
    List (Nat × PeerStat) × List Nat :=
  if (List.lookup g.peerId acc.1).isSome ∧ ¬ g.peerId ∈ acc.2 then
    (updateStat g.peerId
      (fun v => { v with guarAt := g.patchedAt, guarSeq := g.sequenceId }) acc.1,
     g.peerId :: acc.2)
  else acc

/-- _getMissingPatches(fromTimestamp): walk the ordered missing list
updating the first gap of each known peer (requests to sockets are pure
output and not part of this state); afterwards every known peer without a
missing entry gets its guaranteed-contiguous pair set to its last-seen
pair, firing onSynced. -/
def getMissingPatches (my : Nat) (fromTs : Nat) (s : NodeState) : NodeState :=
  let missing := listMissingSequenceIds my fromTs (allRows s)
  let pass := missing.foldl scanFoldStep (s.peerStats, [])
  let stats2 := pass.1.map (fun e =>
    if e.1 ∈ pass.2 then e
    else (e.1, { e.2 with guarAt := e.2.lastAt, guarSeq := e.2.lastSeq }))
  let synced2 := s.peerStartedNotSynced.filter (fun q =>
    match List.lookup q pass.1 with
    | some st => decide (¬ (¬ q ∈ pass.2 ∧ st.lastMsgTs > 0))
    | none => true)
  { s with peerStats := stats2, peerStartedNotSynced := synced2 }

/-- _detectAndRequestMissingPatches(): the minimum guaranteed-contiguous
timestamp among peers that lag behind their last-seen sequence; when one
exists, run the gap scan from it. -/
def detectAndRequestMissingPatches (my : Nat) (s : NodeState) : NodeState :=
  let highest := s.peerStats.foldl
    (fun (h : Nat) e => if e.2.guarSeq < e.2.lastSeq ∧ e.2.guarAt < h then e.2.guarAt else h)
    MAX_SAFE_INTEGER
  if highest < MAX_SAFE_INTEGER then getMissingPatches my highest s else s

/-! ### Transport multiplexer (addRemotePeer / closeRemotePeer / pauseRemotePeer) -/

def eraseSockAssoc (p : Nat) (l : List (Nat × Nat)) : List (Nat × Nat) :=
  l.filter (fun e => !(e.1 == p))

def setSockAssoc (p sock : Nat) (l : List (Nat × Nat)) : List (Nat × Nat) :=
  if (List.lookup p l).isSome then l.map (fun e => if e.1 = p then (p, sock) else e)
  else l ++ [(p, sock)]

/-- addRemotePeer(remotePeerId, socket, connectionInfo): no-op on self;
otherwise create zeroed stats (once), bump the connected-peers counter,
mark the peer not-yet-synced, detach the listener from any previous socket,
register the new socket and attach the listener to it. -/
def addRemotePeer (my : Nat) (remotePeerId socket : Nat) (s : NodeState) : NodeState :=
  if remotePeerId = my then s
  else
    let s1 := if (List.lookup remotePeerId s.peerStats).isSome then s
              else { s with
                     peerStats := s.peerStats ++ [(remotePeerId, peerStatInit)],
                     nbConnectedPeers := s.nbConnectedPeers + 1,
                     peerStartedNotSynced := s.peerStartedNotSynced ++ [remotePeerId] }
    let s2 := match List.lookup remotePeerId s1.peerSockets with
              | some old => { s1 with attachedSockets := s1.attachedSockets.erase old }
              | none => s1
    { s2 with peerSockets := setSockAssoc remotePeerId socket s2.peerSockets,
              attachedSockets := s2.attachedSockets ++ [socket] }

/-- closeRemotePeer(remotePeerId): decrement the connected-peers counter,
detach the listener and drop the socket. -/
def closeRemotePeer (remotePeerId : Nat) (s : NodeState) : NodeState :=
  let s1 := { s with nbConnectedPeers := s.nbConnectedPeers - 1 }
  let s2 := match List.lookup remotePeerId s1.peerSockets with
            | some old => { s1 with attachedSockets := s1.attachedSockets.erase old }
            | none => s1
  { s2 with peerSockets := eraseSockAssoc remotePeerId s2.peerSockets }

/-- pauseRemotePeer(remotePeerId): detach the listener and drop the socket,
leaving everything else alone. -/
def pauseRemotePeer (remotePeerId : Nat) (s : NodeState) : NodeState :=
  let s2 := match List.lookup remotePeerId s.peerSockets with
            | some old => { s with attachedSockets := s.attachedSockets.erase old }
            | none => s
  { s2 with peerSockets := eraseSockAssoc remotePeerId s2.peerSockets }

/-! ### Runs of peer-stat-touching operations (for the stat invariants) -/

inductive NodeOp where
  | patchMsg (now : Nat) (p : Patch)
  | pingMsg (now : Nat) (p : Patch)
  | scan (fromTs : Nat)
  deriving Repr

def nodeStep (my dbVer : Nat) (op : NodeOp) (s : NodeState) : NodeState :=
  match op with
  | .patchMsg now p => onPatchReceivedFromPeers my dbVer now p s
  | .pingMsg now p => detectMissingSequenceIds now p s
  | .scan fromTs => getMissingPatches my fromTs s

/-- A node freshly migrated with the given replicated tables and the given
remote peers added: zeroed stats and empty patch stores. -/
def nodeInit (peers : List Nat) (tables : List String) : NodeState :=
  { peerStats := peers.map (fun p => (p, peerStatInit)),
    peerSockets := [], attachedSockets := [],
    nbConnectedPeers := peers.length,
    peerStartedNotSynced := peers,
    tables := tables, shadow := [], pending := [],
    debounce := tables.map (fun t => (t, MAX_SAFE_INTEGER)),
    hlc := hlcInit }

def nodeRun (my dbVer : Nat) (ops : List NodeOp) (s : NodeState) : NodeState :=
  ops.foldl (fun st op => nodeStep my dbVer op st) s

/-- The peer-stat invariant: for every tracked peer, the
guaranteed-contiguous sequence id never exceeds the last sequence id seen,
and every persisted row of that peer is bounded by the last sequence id
seen.  The second part is the auxiliary fact that makes the first
inductive across gap scans. -/
def statInv (s : NodeState) : Prop :=
  ∀ p st, List.lookup p s.peerStats = some st →
    st.guarSeq ≤ st.lastSeq ∧ ∀ r ∈ allRows s, r.peer = p → r.seq ≤ st.lastSeq

/-- A run exhibiting a gap scan that lowers the guaranteed-contiguous
sequence id: peer 2 sends seq 1 (at 100) and seq 3 (at 300); a scan from
timestamp 200 sees only seq 3 and declares the peer contiguous through 3;
a later scan from 0 sees the gap at seq 1 and rewrites the guarantee down
to 1. -/
def scanOpsPrefix : List NodeOp :=
  [ .patchMsg 0 { type := 10, patchAt := 100, peer := 2, seq := 1, ver := 1,
                  tab := "t", delta := [] },
    .patchMsg 0 { type := 10, patchAt := 300, peer := 2, seq := 3, ver := 1,
                  tab := "t", delta := [] },
    .scan 200 ]

def scanOpsFull : List NodeOp := scanOpsPrefix ++ [.scan 0]

/-- A concrete inbound patch from peer 99 (used to exercise the unknown
peer path on concrete states). -/
def samplePatch : Patch :=
  { type := 10, patchAt := 123, peer := 99, seq := 5, ver := 1, tab := "testA", delta := [] }

/-- A concrete node that knows peer 1 and replicates the table testA. -/
def sampleNode : NodeState := nodeInit [1] ["testA"]

/-! ## upsert and migrate (index.js) -/

/-- The part of the module state that upsert and migrate touch: dbVersion,
the local sequence counters, the set of replicated tables known to the
statement planner, the union of the persisted patch stores, and the
migrations table (its ids). -/
structure SysState where
  dbVersion : Nat
  lastSequenceId : Int
  lastPatchAtTimestamp : Int
  tables : List String
  saved : List Patch
  appliedIds : List Nat
  hlc : HlcState
  deriving Repr, DecidableEq

/-- What upsert does towards its caller: invoke the callback with an error,
propagate a storage exception, or invoke the callback with the session
token. -/
inductive UpsertOutcome where
  | cbError (msg : String)
  | thrown
  | ok (sessionToken : String)
  deriving Repr, DecidableEq

/-- Whether the outcome is a callback-with-error. -/
def UpsertOutcome.isError : UpsertOutcome → Bool
  | .cbError _ => true
  | _ => false

/-- upsert(tableName, rowPatch, callback).  The wall clock read by
hlc.create() is the wallMs argument; saveOk tells whether the prepared
savePatch statement succeeds (false models the SQL insert throwing, which
aborts upsert before the counters are touched). -/
def upsert (my : Nat) (wallMs : Nat) (saveOk : Bool) (tableName : String)
    (delta : List (String × Int)) (s : SysState) : SysState × UpsertOutcome :=
  if s.dbVersion = 0 then (s, .cbError "Database version is not set")
  else if ¬ (tableName = "_" ∨ tableName ∈ s.tables) then
    (s, .cbError ("Table " ++ tableName ++ " not found"))
  else if s.lastSequenceId = -1 then
    (s, .cbError "System not correctly initialized. Please call migrate first.")
  else
    let c := hlcCreate wallMs s.hlc
    let patch : Patch :=
      { type := 10, patchAt := c.1, peer := my, seq := s.lastSequenceId + 1,
        ver := s.dbVersion, tab := tableName, delta := delta }
    if saveOk then
      ({ s with saved := s.saved ++ [patch],
                lastSequenceId := s.lastSequenceId + 1,
                lastPatchAtTimestamp := (c.1 : Int),
                hlc := c.2 },
       .ok (generateSessionToken my patch.seq))
    else
      ({ s with hlc := c.2 }, .thrown)

/-- getLastPatchInfo(fromTimestamp): MAX(_patchedAt) and MAX(_sequenceId)
over the rows the local peer itself produced, across every patch store;
none models the SQL NULL row returned when no such row exists. -/
def getLastPatchInfo (my : Nat) (fromTs : Nat) (saved : List Patch) :
    Option (Nat × Int) :=
  let mine := saved.filter (fun p => decide (p.peer = my ∧ fromTs ≤ p.patchAt))
  match mine with
  | [] => none
  | x :: xs =>
      some (xs.foldl (fun acc p => (max acc.1 p.patchAt, max acc.2 p.seq))
        (x.patchAt, x.seq))

/-- _initPeerSequence(): restore (lastSequenceId, lastPatchAtTimestamp)
from getLastPatchInfo(0), defaulting to (0, 0). -/
def initPeerSequence (my : Nat) (saved : List Patch) : Int × Int :=
  match getLastPatchInfo my 0 saved with
  | some st => if st.2 > 0 then (st.2, (st.1 : Int)) else (0, 0)
  | none => (0, 0)

structure AppMigration where
  up : String
  down : String
  deriving Repr, DecidableEq

structure MigrateResult where
  currentVersion : Nat
  previousVersion : Nat
  deriving Repr, DecidableEq

/-- The id of the last row of SELECT * FROM migrations ORDER BY id (0 when
the table is empty). -/
def maxNatList (l : List Nat) : Nat := l.foldl max 0

/-- migrate(appMigrations).  dbVersion is set to appMigrations.length: the
source writes _targetId ?? 1, but Array.length is never nullish so the
fallback is dead and an empty list yields dbVersion 0.  The up/down SQL
bodies only alter the user schema (opaque here); the migrations table keeps
the first targetId ids on a downgrade and gains the new ids on an upgrade.
Afterwards the statements are re-planned and (lastSequenceId,
lastPatchAtTimestamp) are restored via _initPeerSequence. -/
def migrate (my : Nat) (appMigrations : List AppMigration) (s : SysState) :
    SysState × MigrateResult :=
  let lastAppliedId := maxNatList s.appliedIds
  let targetId := appMigrations.length
  let applied :=
    if targetId < lastAppliedId then
      s.appliedIds.filter (fun i => decide (¬ (targetId < i ∧ i ≤ lastAppliedId)))
    else if lastAppliedId < targetId then
      s.appliedIds ++ List.range' (lastAppliedId + 1) (targetId - lastAppliedId)
    else s.appliedIds
  let init := initPeerSequence my s.saved
  ({ s with dbVersion := targetId, appliedIds := applied,
            lastSequenceId := init.1, lastPatchAtTimestamp := init.2 },
   { currentVersion := targetId, previousVersion := lastAppliedId })

/-! ## Helper lemmas -/

theorem lookup_filter_out (p : Nat) (l : List (Nat × Nat)) :
    List.lookup p (l.filter (fun e => !(e.1 == p))) = none := by
  induction l with
  | nil => rfl
  | cons e t ih =>
      obtain ⟨a, b⟩ := e
      by_cases h : a = p
      · simp only [List.filter_cons, h]
        simpa using ih
      · simp only [List.filter_cons]
        have hb : ((a, b).1 == p) = false := by simpa using h
        simp only [hb, Bool.not_false, if_pos]
        rw [List.lookup]
        have hb2 : (p == a) = false := by simpa using Ne.symm h
        simp [hb2, ih]

theorem lookup_eraseSockAssoc (p : Nat) (l : List (Nat × Nat)) :
    List.lookup p (eraseSockAssoc p l) = none :=
  lookup_filter_out p l

theorem hlcCreate_highest (ms : Nat) (s : HlcState) :
    ((hlcCreate ms s).2).highestRemoteHLC = s.highestRemoteHLC := by
  by_cases h : epochDiff ms * 8192 > s.highestRemoteHLC <;>
    simp [hlcCreate, h]

theorem hlcCreate_gt (ms : Nat) (s : HlcState) :
    s.highestRemoteHLC < (hlcCreate ms s).1 := by
  by_cases h : epochDiff ms * 8192 > s.highestRemoteHLC <;> simp [hlcCreate, h]

theorem hlcReceive_ge_self (r : Nat) (s : HlcState) :
    s.highestRemoteHLC ≤ (hlcReceive r s).highestRemoteHLC := by
  unfold hlcReceive
  split
  · exact Nat.le_of_lt (by assumption)
  · exact le_rfl

theorem hlcReceive_ge_arg (r : Nat) (s : HlcState) :
    r ≤ (hlcReceive r s).highestRemoteHLC := by
  unfold hlcReceive
  split
  · exact le_rfl
  · exact Nat.le_of_not_lt (by assumption)

theorem hlcRun_cons_recv (r : Nat) (t : List HlcEv) (s : HlcState) :
    hlcRun (.recv r :: t) s = hlcRun t (hlcReceive r s) := by
  simp only [hlcRun]

theorem hlcRun_cons_mk (ms : Nat) (t : List HlcEv) (s : HlcState) :
    hlcRun (.mk ms :: t) s = hlcRun t ((hlcCreate ms s).2) := by
  simp only [hlcRun]

theorem hlcRun_highest_mono (evs : List HlcEv) (s : HlcState) :
    s.highestRemoteHLC ≤ (hlcRun evs s).highestRemoteHLC := by
  induction evs generalizing s with
  | nil => exact le_rfl
  | cons e t ih =>
      cases e with
      | recv r =>
          rw [hlcRun_cons_recv]
          exact le_trans (hlcReceive_ge_self r s) (ih _)
      | mk ms =>
          rw [hlcRun_cons_mk]
          have h := ih ((hlcCreate ms s).2)
          rw [hlcCreate_highest] at h
          exact h

theorem hlcRun_ge_received (evs : List HlcEv) (s : HlcState) (r : Nat)
    (h : r ∈ hlcReceivedIn evs) :
    r ≤ (hlcRun evs s).highestRemoteHLC := by
  induction evs generalizing s with
  | nil => simp [hlcReceivedIn] at h
  | cons e t ih =>
      cases e with
      | recv q =>
          have hm : r = q ∨ r ∈ hlcReceivedIn t := by
            simpa [hlcReceivedIn] using h
          rw [hlcRun_cons_recv]
          rcases hm with rfl | hm
          · exact le_trans (hlcReceive_ge_arg r s) (hlcRun_highest_mono t _)
          · exact ih _ hm
      | mk ms =>
          have hm : r ∈ hlcReceivedIn t := by simpa [hlcReceivedIn] using h
          rw [hlcRun_cons_mk]
          exact ih _ hm

/-! ## Claim theorems (transport, migrate, HLC, debounce) -/

/-- C10: addRemotePeer called with the local peer id is a complete no-op:
no stats entry, no socket registration, no listener, no counter change. -/
theorem addRemotePeer_self_noop (my socket : Nat) (s : NodeState) :
    addRemotePeer my my socket s = s := by
  simp [addRemotePeer]

/-- C7 counterexample: after adding remote peer 2 and then calling
closeRemotePeer(2), the socket is gone but peerStats still holds the
zeroed stat entry for peer 2, contradicting the claim that closeRemotePeer
drops the peer's stats. -/
theorem closeRemotePeer_keeps_stats_cex :
    List.lookup 2 (closeRemotePeer 2 (addRemotePeer 1 2 77 (nodeInit [] []))).peerStats
      = some peerStatInit
  ∧ List.lookup 2 (closeRemotePeer 2 (addRemotePeer 1 2 77 (nodeInit [] []))).peerSockets
      = none := by decide

/-- C7 (amended): closeRemotePeer detaches and drops the socket and
decrements the connected-peers counter but leaves peerStats untouched;
pauseRemotePeer likewise drops the socket and keeps peerStats, leaving the
counter alone. -/
theorem close_pause_remote_peer_effects (id : Nat) (s : NodeState) :
    (closeRemotePeer id s).peerStats = s.peerStats
  ∧ List.lookup id (closeRemotePeer id s).peerSockets = none
  ∧ (closeRemotePeer id s).nbConnectedPeers = s.nbConnectedPeers - 1
  ∧ (pauseRemotePeer id s).peerStats = s.peerStats
  ∧ List.lookup id (pauseRemotePeer id s).peerSockets = none
  ∧ (pauseRemotePeer id s).nbConnectedPeers = s.nbConnectedPeers := by
  unfold closeRemotePeer pauseRemotePeer
  cases h : List.lookup id s.peerSockets <;>
    simp [h, eraseSockAssoc, lookup_filter_out]

/-- C8 counterexample: migrating with an empty migration list leaves
dbVersion at 0, not 1 — Array.length is never nullish, so the source's
targetId ?? 1 fallback is dead. -/
theorem migrate_empty_dbversion_cex :
    (migrate 1 [] { dbVersion := 1, lastSequenceId := 0, lastPatchAtTimestamp := 0,
                    tables := [], saved := [], appliedIds := [1],
                    hlc := hlcInit }).1.dbVersion = 0
  ∧ ¬ (migrate 1 [] { dbVersion := 1, lastSequenceId := 0, lastPatchAtTimestamp := 0,
                      tables := [], saved := [], appliedIds := [1],
                      hlc := hlcInit }).1.dbVersion = 1 := by decide

/-- C8 (amended): after migrate(appMigrations), dbVersion equals
appMigrations.length (0 when the list is empty), the returned record is
{currentVersion = appMigrations.length, previousVersion = highest
previously applied migration id}, and the local sequence counters are
re-initialised from getLastPatchInfo(0) over all patch stores. -/
theorem migrate_result_spec (my : Nat) (migs : List AppMigration) (s : SysState) :
    (migrate my migs s).1.dbVersion = migs.length
  ∧ (migrate my migs s).2.currentVersion = migs.length
  ∧ (migrate my migs s).2.previousVersion = maxNatList s.appliedIds
  ∧ (migrate my migs s).1.lastSequenceId = (initPeerSequence my s.saved).1
  ∧ (migrate my migs s).1.lastPatchAtTimestamp = (initPeerSequence my s.saved).2 := by
  simp [migrate]

/-- C3 counterexample: two create() calls during the same wall-clock
millisecond with nothing received in between return the same HLC value
while the counter stays at 0 — no counter overflow is involved, so
create() does return a value less than or equal to a previously produced
one. -/
theorem hlc_create_same_ms_cex :
    (hlcCreate (UNIX_TIMESTAMP_OFFSET + 7)
        ((hlcCreate (UNIX_TIMESTAMP_OFFSET + 7) hlcInit).2)).1
      = (hlcCreate (UNIX_TIMESTAMP_OFFSET + 7) hlcInit).1
  ∧ ((hlcCreate (UNIX_TIMESTAMP_OFFSET + 7) hlcInit).2).counter = 0
  ∧ ((hlcCreate (UNIX_TIMESTAMP_OFFSET + 7)
        ((hlcCreate (UNIX_TIMESTAMP_OFFSET + 7) hlcInit).2)).2).counter = 0 := by
  decide

/-- C3 (amended): after any sequence of receive() and create() calls from
the initial clock state, create() returns a value strictly greater than
every HLC previously handed to receive(), with no overflow proviso
needed.  (Relative to previously created values only equality or even
decrease can occur, as the counterexample shows.) -/
theorem hlc_create_gt_all_received (evs : List HlcEv) (wallMs r : Nat)
    (h : r ∈ hlcReceivedIn evs) :
    r < (hlcCreate wallMs (hlcRun evs hlcInit)).1 :=
  lt_of_le_of_lt (hlcRun_ge_received evs hlcInit r h) (hlcCreate_gt wallMs _)

theorem hlc_create_gt_all_received_witness :
    5 ∈ hlcReceivedIn [HlcEv.recv 5]
  ∧ 5 < (hlcCreate 0 (hlcRun [HlcEv.recv 5] hlcInit)).1 :=
  ⟨by decide, hlc_create_gt_all_received [HlcEv.recv 5] 0 5 (by decide)⟩

theorem debounce_foldl_spec (ats : List Nat) (d : TableDebounce)
    (hd : d.debounceFromTimestamp < MAX_SAFE_INTEGER)
    (h : ∀ a ∈ ats, a < MAX_SAFE_INTEGER) :
    (ats.foldl (fun x a => debounceRecv a x) d).nbApplySchedules = d.nbApplySchedules
  ∧ (ats.foldl (fun x a => debounceRecv a x) d).debounceFromTimestamp
      = min d.debounceFromTimestamp (listMinAt ats) := by
  induction ats generalizing d with
  | nil =>
      refine ⟨rfl, ?_⟩
      simp only [List.foldl_nil, listMinAt]
      exact (min_eq_left (Nat.le_of_lt hd)).symm
  | cons a t ih =>
      have ha : a < MAX_SAFE_INTEGER := h a (by simp)
      have hne : ¬ d.debounceFromTimestamp = MAX_SAFE_INTEGER := by omega
      have h1 : (debounceRecv a d).nbApplySchedules = d.nbApplySchedules := by
        unfold debounceRecv
        simp only [hne, if_false]
        split <;> rfl
      have h2 : (debounceRecv a d).debounceFromTimestamp
          = min d.debounceFromTimestamp a := by
        unfold debounceRecv
        simp only [hne, if_false]
        by_cases hlt : a < d.debounceFromTimestamp
        · simp [hlt, min_eq_right (Nat.le_of_lt hlt)]
        · simp [hlt, min_eq_left (Nat.le_of_not_lt hlt)]
      have h3 : (debounceRecv a d).debounceFromTimestamp < MAX_SAFE_INTEGER := by
        rw [h2]; exact lt_of_le_of_lt (min_le_left _ _) hd
      have hmem : ∀ x ∈ t, x < MAX_SAFE_INTEGER :=
        fun x hx => h x (List.mem_cons_of_mem a hx)
      obtain ⟨ih1, ih2⟩ := ih (debounceRecv a d) h3 hmem
      refine ⟨?_, ?_⟩
      · rw [List.foldl_cons, ih1, h1]
      · rw [List.foldl_cons, ih2, h2]
        simp only [listMinAt]
        exact min_assoc _ _ _

/-- C5: a burst of N ≥ 1 remote patches for one table between two yield
points schedules exactly one applyPatches call; the flush applies from the
minimum patch timestamp of the burst and resets debounceFromTimestamp to
Number.MAX_SAFE_INTEGER. -/
theorem debounce_burst_one_flush (ats : List Nat) (h1 : ats ≠ [])
    (h2 : ∀ a ∈ ats, a < MAX_SAFE_INTEGER) :
    (debounceBurst ats).nbApplySchedules = 1
  ∧ (debounceFlush (debounceBurst ats)).1 = listMinAt ats
  ∧ (debounceFlush (debounceBurst ats)).2.debounceFromTimestamp = MAX_SAFE_INTEGER := by
  match ats, h1 with
  | a :: t, _ =>
    have ha : a < MAX_SAFE_INTEGER := h2 a (by simp)
    have hfirst : debounceRecv a debounceInit
        = { debounceFromTimestamp := a, nbApplySchedules := 1 } := by
      unfold debounceRecv debounceInit
      by_cases hlt : a < MAX_SAFE_INTEGER - 1
      · simp [hlt]
      · have he : a = MAX_SAFE_INTEGER - 1 := by
          have : MAX_SAFE_INTEGER = 2 ^ 53 - 1 := rfl
          omega
        simp [hlt, he]
    have hbound : ({ debounceFromTimestamp := a, nbApplySchedules := 1 } :
        TableDebounce).debounceFromTimestamp < MAX_SAFE_INTEGER := ha
    obtain ⟨hh1, hh2⟩ := debounce_foldl_spec t _ hbound
      (fun x hx => h2 x (List.mem_cons_of_mem a hx))
    refine ⟨?_, ?_, rfl⟩
    · show ((a :: t).foldl (fun x y => debounceRecv y x) debounceInit).nbApplySchedules = 1
      rw [List.foldl_cons, hfirst, hh1]
    · show ((a :: t).foldl (fun x y => debounceRecv y x) debounceInit).debounceFromTimestamp
        = listMinAt (a :: t)
      rw [List.foldl_cons, hfirst, hh2]
      simp only [listMinAt]

theorem debounce_burst_one_flush_witness :
    (debounceBurst [5, 3, 7]).nbApplySchedules = 1
  ∧ (debounceFlush (debounceBurst [5, 3, 7])).1 = listMinAt [5, 3, 7]
  ∧ (debounceFlush (debounceBurst [5, 3, 7])).2.debounceFromTimestamp
      = MAX_SAFE_INTEGER :=
  debounce_burst_one_flush [5, 3, 7] (by decide) (by decide)

/-- C2: upsert fails through its callback exactly when dbVersion is 0, the
table has no prepared statements, or lastSequenceId is -1, leaving the
whole state untouched; otherwise it persists one patch with
seq = lastSequenceId + 1, increments lastSequenceId, sets
lastPatchAtTimestamp to the patch's HLC, and calls back with
(nil, "peerId.sequenceId"); if the save throws, the counters and the store
are untouched and no callback happens. -/
theorem upsert_contract (my wallMs : Nat) (saveOk : Bool) (tableName : String)
    (delta : List (String × Int)) (s : SysState) :
    ((upsert my wallMs saveOk tableName delta s).2.isError = true
       ↔ (s.dbVersion = 0 ∨ ¬ (tableName = "_" ∨ tableName ∈ s.tables)
            ∨ s.lastSequenceId = -1))
  ∧ ((s.dbVersion = 0 ∨ ¬ (tableName = "_" ∨ tableName ∈ s.tables)
        ∨ s.lastSequenceId = -1) →
      (upsert my wallMs saveOk tableName delta s).1 = s)
  ∧ (¬ (s.dbVersion = 0 ∨ ¬ (tableName = "_" ∨ tableName ∈ s.tables)
        ∨ s.lastSequenceId = -1) →
      saveOk = true →
      (upsert my wallMs saveOk tableName delta s).1.saved
          = s.saved ++ [{ type := 10, patchAt := (hlcCreate wallMs s.hlc).1, peer := my,
                          seq := s.lastSequenceId + 1, ver := s.dbVersion,
                          tab := tableName, delta := delta }]
        ∧ (upsert my wallMs saveOk tableName delta s).1.lastSequenceId
            = s.lastSequenceId + 1
        ∧ (upsert my wallMs saveOk tableName delta s).1.lastPatchAtTimestamp
            = ((hlcCreate wallMs s.hlc).1 : Int)
        ∧ (upsert my wallMs saveOk tableName delta s).2
            = .ok (generateSessionToken my (s.lastSequenceId + 1)))
  ∧ (¬ (s.dbVersion = 0 ∨ ¬ (tableName = "_" ∨ tableName ∈ s.tables)
        ∨ s.lastSequenceId = -1) →
      saveOk = false →
      (upsert my wallMs saveOk tableName delta s).1.lastSequenceId = s.lastSequenceId
        ∧ (upsert my wallMs saveOk tableName delta s).1.lastPatchAtTimestamp
            = s.lastPatchAtTimestamp
        ∧ (upsert my wallMs saveOk tableName delta s).1.saved = s.saved
        ∧ (upsert my wallMs saveOk tableName delta s).2 = .thrown) := by
  by_cases h1 : s.dbVersion = 0
  · simp [upsert, h1, UpsertOutcome.isError]
  · by_cases h2 : tableName = "_" ∨ tableName ∈ s.tables
    · by_cases h3 : s.lastSequenceId = -1
      · simp [upsert, h1, h2, h3, UpsertOutcome.isError]
      · cases saveOk <;>
          simp [upsert, h1, h2, h3, UpsertOutcome.isError]
    · simp [upsert, h1, h2, UpsertOutcome.isError]

theorem upsert_contract_witness :
    (upsert 1800 0 true "testA" []
        { dbVersion := 1, lastSequenceId := 0, lastPatchAtTimestamp := 0,
          tables := ["testA"], saved := [], appliedIds := [1], hlc := hlcInit }).2
      = .ok (generateSessionToken 1800 1)
  ∧ (upsert 1800 0 true "testA" []
        { dbVersion := 1, lastSequenceId := 0, lastPatchAtTimestamp := 0,
          tables := ["testA"], saved := [], appliedIds := [1], hlc := hlcInit }).1.lastSequenceId
      = 1 := by
  have h := (upsert_contract 1800 0 true "testA" []
      { dbVersion := 1, lastSequenceId := 0, lastPatchAtTimestamp := 0,
        tables := ["testA"], saved := [], appliedIds := [1], hlc := hlcInit }).2.2.1
    (by decide) rfl
  exact ⟨by simpa using h.2.2.2, by simpa using h.2.1⟩

theorem detectMissing_unknown (now : Nat) (p : Patch) (s : NodeState)
    (hunk : List.lookup p.peer s.peerStats = none) :
    detectMissingSequenceIds now p s = { s with hlc := hlcReceive p.patchAt s.hlc } := by
  unfold detectMissingSequenceIds
  simp [hunk]

/-- C6 counterexample: an inbound PATCH from peer 99, never added as a
remote peer, is nevertheless persisted into the shadow store (the save
happens before the unknown-peer check), so local state is modified even
though no stats entry is created. -/
theorem unknown_peer_patch_persisted_cex :
    (onPatchReceivedFromPeers 1800 1 50 samplePatch sampleNode).shadow
      = [("testA", samplePatch)]
  ∧ List.lookup 99 (onPatchReceivedFromPeers 1800 1 50 samplePatch sampleNode).peerStats
      = none := by decide

/-- C6 (amended): a message from an unknown peer never creates a stats
entry and never changes peerStats; a PING from an unknown peer only
advances the HLC; but an unknown-peer PATCH is still persisted — to
pending_patches on a version mismatch, to the table's shadow store
otherwise — before the stats update is skipped. -/
theorem unknown_peer_processing (my dbVer now : Nat) (p : Patch) (s : NodeState)
    (hne : p.peer ≠ my)
    (hunk : List.lookup p.peer s.peerStats = none) :
    detectMissingSequenceIds now p s = { s with hlc := hlcReceive p.patchAt s.hlc }
  ∧ (onPatchReceivedFromPeers my dbVer now p s).peerStats = s.peerStats
  ∧ (p.ver ≠ dbVer →
      onPatchReceivedFromPeers my dbVer now p s
        = { s with pending := s.pending ++ [p], hlc := hlcReceive p.patchAt s.hlc })
  ∧ (p.ver = dbVer → p.tab ≠ "_" → p.tab ∈ s.tables →
      (onPatchReceivedFromPeers my dbVer now p s).shadow = s.shadow ++ [(p.tab, p)]
      ∧ (onPatchReceivedFromPeers my dbVer now p s).pending = s.pending) := by
  have hpend : detectMissingSequenceIds now p { s with pending := s.pending ++ [p] }
      = { s with pending := s.pending ++ [p], hlc := hlcReceive p.patchAt s.hlc } :=
    detectMissing_unknown now p _ hunk
  have hshad : detectMissingSequenceIds now p { s with shadow := s.shadow ++ [(p.tab, p)] }
      = { s with shadow := s.shadow ++ [(p.tab, p)], hlc := hlcReceive p.patchAt s.hlc } :=
    detectMissing_unknown now p _ hunk
  refine ⟨detectMissing_unknown now p s hunk, ?_, ?_, ?_⟩
  · by_cases hv : p.ver = dbVer
    · by_cases ht : p.tab = "_"
      · simp [onPatchReceivedFromPeers, hne, hv, ht, hpend]
      · by_cases htab : p.tab ∈ s.tables
        · simp [onPatchReceivedFromPeers, hne, hv, ht, htab, hshad, debounceUpd]
        · simp [onPatchReceivedFromPeers, hne, hv, ht, htab]
    · simp [onPatchReceivedFromPeers, hne, hv, hpend]
  · intro hv
    simp [onPatchReceivedFromPeers, hne, hv, hpend]
  · intro hv ht htab
    simp [onPatchReceivedFromPeers, hne, hv, ht, htab, hshad, debounceUpd]

theorem unknown_peer_processing_witness :
    (onPatchReceivedFromPeers 2000 1 50 samplePatch sampleNode).peerStats
      = sampleNode.peerStats
  ∧ (onPatchReceivedFromPeers 2000 1 50 samplePatch sampleNode).shadow
      = sampleNode.shadow ++ [("testA", samplePatch)] := by
  have h := unknown_peer_processing 2000 1 50 samplePatch sampleNode
    (by decide) (by decide)
  exact ⟨h.2.1, by simpa using (h.2.2.2 rfl (by decide) (by decide)).1⟩

theorem tripleGt_iff (a b : Int × Int × Int) :
    tripleGt a b = true
      ↔ (a.1 > b.1 ∨ (a.1 = b.1 ∧ (a.2.1 > b.2.1 ∨ (a.2.1 = b.2.1 ∧ a.2.2 > b.2.2)))) := by
  simp [tripleGt]

theorem tripleGt_asymm {a b : Int × Int × Int} (h : tripleGt a b = true) :
    tripleGt b a = false := by
  cases hb : tripleGt b a
  · rfl
  · exfalso
    rw [tripleGt_iff] at h hb
    obtain ⟨x1, y1, z1⟩ := a
    obtain ⟨x2, y2, z2⟩ := b
    dsimp only at h hb
    omega

theorem tripleGt_self (a : Int × Int × Int) : tripleGt a a = false := by
  obtain ⟨x, y, z⟩ := a
  simp [tripleGt]

theorem step_first_invocation (x : KLRow) :
    keep_last_step keepLastCtxInit x = ctxOfRow x := rfl

theorem ctxOfRow_triple (x : KLRow) : ctxTriple (ctxOfRow x) = rowTriple x := rfl

theorem step_of_init (ctx : KeepLastCtx) (x : KLRow) (h : ctx.isInit = true) :
    keep_last_step ctx x
      = if x.value.isSome && tripleGt (rowTriple x) (ctxTriple ctx) then ctxOfRow x
        else ctx := by
  unfold keep_last_step
  simp only [h, Bool.not_true, Bool.false_eq_true, if_false]
  rfl

theorem step_sel (cur : KLRow) (x : KLRow) (hx : x.value.isSome = true) :
    keep_last_step (ctxOfRow cur) x
      = ctxOfRow (if tripleGt (rowTriple x) (rowTriple cur) = true then x else cur) := by
  rw [step_of_init _ _ rfl, ctxOfRow_triple, hx]
  by_cases hgt : tripleGt (rowTriple x) (rowTriple cur) = true <;> simp [hgt]

theorem fold_filter_nulls (rs : List KLRow) (ctx : KeepLastCtx) (h : ctx.isInit = true) :
    rs.foldl keep_last_step ctx
      = (rs.filter (fun x => x.value.isSome)).foldl keep_last_step ctx := by
  induction rs generalizing ctx with
  | nil => rfl
  | cons x t ih =>
      by_cases hx : x.value.isSome = true
      · rw [List.foldl_cons, List.filter_cons]
        simp only [hx, if_pos, List.foldl_cons]
        have hinit : (keep_last_step ctx x).isInit = true := by
          rw [step_of_init ctx x h]
          split
          · rfl
          · exact h
        exact ih _ hinit
      · have hstep : keep_last_step ctx x = ctx := by
          rw [step_of_init ctx x h]
          have hx2 : x.value.isSome = false := by
            cases hv : x.value.isSome
            · rfl
            · exact absurd hv hx
          simp [hx2]
        rw [List.foldl_cons, hstep, List.filter_cons]
        simp only [hx, if_neg, Bool.false_eq_true, if_false]
        exact ih ctx h

theorem fold_sel_max (xs : List KLRow) (cur m : KLRow)
    (hall : ∀ x ∈ xs, x.value.isSome = true)
    (hmem : m = cur ∨ m ∈ xs)
    (hmax : ∀ x, (x = cur ∨ x ∈ xs) → x = m ∨ tripleGt (rowTriple m) (rowTriple x) = true) :
    xs.foldl keep_last_step (ctxOfRow cur) = ctxOfRow m := by
  induction xs generalizing cur with
  | nil =>
      rcases hmem with rfl | hm
      · rfl
      · exact absurd hm (List.not_mem_nil m)
  | cons x t ih =>
      have hx : x.value.isSome = true := hall x (List.mem_cons_self x t)
      rw [List.foldl_cons, step_sel cur x hx]
      set cur2 := if tripleGt (rowTriple x) (rowTriple cur) = true then x else cur with hcur2
      have hcur2mem : cur2 = x ∨ cur2 = cur := by
        rw [hcur2]; split
        · exact Or.inl rfl
        · exact Or.inr rfl
      have hall2 : ∀ y ∈ t, y.value.isSome = true :=
        fun y hy => hall y (List.mem_cons_of_mem x hy)
      have hmax2 : ∀ y, (y = cur2 ∨ y ∈ t) → y = m ∨ tripleGt (rowTriple m) (rowTriple y) = true := by
        intro y hy
        rcases hy with hyc | hy
        · rcases hcur2mem with h2 | h2
          · exact hmax y (Or.inr (by rw [hyc, h2]; exact List.mem_cons_self x t))
          · exact hmax y (Or.inl (by rw [hyc, h2]))
        · exact hmax y (Or.inr (List.mem_cons_of_mem x hy))
      have hmem2 : m = cur2 ∨ m ∈ t := by
        by_cases hmt : m ∈ t
        · exact Or.inr hmt
        · left
          have hmcx : m = cur ∨ m = x := by
            rcases hmem with h | h
            · exact Or.inl h
            · rcases List.mem_cons.mp h with h2 | h2
              · exact Or.inr h2
              · exact absurd h2 hmt
          rw [hcur2]
          rcases hmcx with hmc | hmx2
          · split
            · rename_i hgt
              rcases hmax x (Or.inr (List.mem_cons_self x t)) with hxm | hgtm
              · exact hxm.symm
              · have hfa := tripleGt_asymm hgtm
                rw [hmc] at hfa
                rw [hfa] at hgt
                exact absurd hgt Bool.false_ne_true
            · exact hmc
          · split
            · exact hmx2
            · rename_i hgt
              rcases hmax cur (Or.inl rfl) with hcm | hgtm
              · rw [hcm]
              · rw [← hmx2] at hgt
                exact absurd hgtm hgt
      exact ih cur2 hall2 hmem2 hmax2

/-- C1: keep_last over a non-empty group whose candidate set — the first
row plus every later non-null row — has a strictly greatest
(patchedAt, peerId, sequenceId) triple returns that row's value; the first
invocation initialises the state from the row regardless of nullness, and a
later invocation changes the state iff its value is non-null and its triple
is strictly greater than the state's. -/
theorem keep_last_lww (r : KLRow) (rs : List KLRow) (m : KLRow)
    (hmem : m ∈ klCandidates r rs)
    (hmax : ∀ x ∈ klCandidates r rs,
      x = m ∨ tripleGt (rowTriple m) (rowTriple x) = true) :
    keep_last (r :: rs) = m.value
  ∧ (∀ x : KLRow, keep_last_step keepLastCtxInit x = ctxOfRow x)
  ∧ (∀ (ctx : KeepLastCtx) (x : KLRow), ctx.isInit = true →
      (keep_last_step ctx x ≠ ctx
        ↔ (x.value.isSome = true ∧ tripleGt (rowTriple x) (ctxTriple ctx) = true))) := by
  refine ⟨?_, fun x => step_first_invocation x, ?_⟩
  · have hmem2 : m = r ∨ m ∈ rs.filter (fun x => x.value.isSome) := by
      rcases List.mem_cons.mp hmem with rfl | hm
      · exact Or.inl rfl
      · exact Or.inr hm
    have hmax2 : ∀ x, (x = r ∨ x ∈ rs.filter (fun y => y.value.isSome)) →
        x = m ∨ tripleGt (rowTriple m) (rowTriple x) = true := by
      intro x hx
      rcases hx with rfl | hx
      · exact hmax x (List.mem_cons_self x _)
      · exact hmax x (List.mem_cons_of_mem r hx)
    have hall : ∀ x ∈ rs.filter (fun y => y.value.isSome), x.value.isSome = true := by
      intro x hx
      simpa using (List.mem_filter.mp hx).2
    show keep_last_finalize ((r :: rs).foldl keep_last_step keepLastCtxInit) = m.value
    rw [List.foldl_cons, step_first_invocation,
        fold_filter_nulls rs (ctxOfRow r) rfl,
        fold_sel_max (rs.filter (fun y => y.value.isSome)) r m hall hmem2 hmax2]
    rfl
  · intro ctx x hinit
    rw [step_of_init ctx x hinit]
    by_cases hc : (x.value.isSome && tripleGt (rowTriple x) (ctxTriple ctx)) = true
    · rw [if_pos hc]
      constructor
      · intro _
        exact Bool.and_eq_true_iff.mp hc
      · intro _ hceq
        have h2 : tripleGt (rowTriple x) (ctxTriple ctx) = true :=
          (Bool.and_eq_true_iff.mp hc).2
        rw [← hceq, ctxOfRow_triple, tripleGt_self] at h2
        exact Bool.false_ne_true h2
    · rw [if_neg hc]
      constructor
      · intro hne
        exact absurd rfl hne
      · intro hand
        exact absurd (by simp [hand.1, hand.2]) hc

theorem keep_last_lww_witness :
    (⟨some 5, 2, 1, 1⟩ : KLRow) ∈ klCandidates ⟨some 1, 1, 1, 1⟩ [⟨none, 9, 9, 9⟩, ⟨some 5, 2, 1, 1⟩]
  ∧ keep_last [⟨some 1, 1, 1, 1⟩, ⟨none, 9, 9, 9⟩, ⟨some 5, 2, 1, 1⟩] = some 5 :=
  ⟨by decide,
   (keep_last_lww ⟨some 1, 1, 1, 1⟩ [⟨none, 9, 9, 9⟩, ⟨some 5, 2, 1, 1⟩] ⟨some 5, 2, 1, 1⟩
     (by decide) (by decide)).1⟩

theorem digitChar_isDigit (d : Nat) (h : d < 10) : (digitChar d).isDigit = true := by
  interval_cases d <;> decide

theorem digitChar_props (d : Nat) (h : d < 10) :
    digitChar d ≠ '.' ∧ isJsSpace (digitChar d) = false
    ∧ digitChar d ≠ '-' ∧ digitChar d ≠ '+' := by
  interval_cases d <;> exact ⟨by decide, by decide, by decide, by decide⟩

theorem charDigitVal_digitChar (d : Nat) (h : d < 10) :
    charDigitVal (digitChar d) = d := by
  interval_cases d <;> decide

theorem decCharsAux_zero (fuel : Nat) : decCharsAux fuel 0 = [] := by
  cases fuel <;> rfl

theorem decCharsAux_all_digits (fuel n : Nat) :
    ∀ c ∈ decCharsAux fuel n, ∃ d, d < 10 ∧ c = digitChar d := by
  induction fuel generalizing n with
  | zero =>
      intro c hc
      simp [decCharsAux] at hc
  | succ fuel ih =>
      intro c hc
      cases n with
      | zero => simp [decCharsAux] at hc
      | succ k =>
          rw [decCharsAux] at hc
          rcases List.mem_append.mp hc with hc | hc
          · exact ih _ c hc
          · refine ⟨(k + 1) % 10, Nat.mod_lt _ (by norm_num), ?_⟩
            simpa using hc

theorem decChars_all_digits (n : Nat) :
    ∀ c ∈ decChars n, ∃ d, d < 10 ∧ c = digitChar d := by
  intro c hc
  unfold decChars at hc
  by_cases h0 : n = 0
  · simp [h0] at hc
    exact ⟨0, by norm_num, by rw [hc]; rfl⟩
  · rw [if_neg h0] at hc
    exact decCharsAux_all_digits n n c hc

theorem decCharsAux_ne_nil (fuel n : Nat) (hn : 0 < n) (hf : n ≤ fuel) :
    decCharsAux fuel n ≠ [] := by
  cases fuel with
  | zero => omega
  | succ fuel =>
      cases n with
      | zero => omega
      | succ k =>
          rw [decCharsAux]
          simp

theorem decChars_ne_nil (n : Nat) : decChars n ≠ [] := by
  unfold decChars
  by_cases h0 : n = 0
  · simp [h0]
  · rw [if_neg h0]
    exact decCharsAux_ne_nil n n (Nat.pos_of_ne_zero h0) le_rfl

theorem parse_decCharsAux (fuel : Nat) :
    ∀ n a : Nat, 0 < n → n ≤ fuel →
    (decCharsAux fuel n).foldl (fun x c => x * 10 + charDigitVal c) a
      = a * 10 ^ (decCharsAux fuel n).length + n := by
  induction fuel with
  | zero => intro n a hn hf; omega
  | succ fuel ih =>
      intro n a hn hf
      cases n with
      | zero => omega
      | succ k =>
          rw [decCharsAux]
          rw [List.foldl_append, List.length_append]
          simp only [List.foldl_cons, List.foldl_nil, List.length_cons, List.length_nil]
          rw [charDigitVal_digitChar _ (Nat.mod_lt _ (by norm_num))]
          by_cases hq : (k + 1) / 10 = 0
          · have hk : k + 1 < 10 := by
              rcases Nat.lt_or_ge (k + 1) 10 with h | h
              · exact h
              · exact absurd hq (by
                  have := Nat.div_le_div_right (c := 10) h
                  simp at this
                  omega)
            rw [hq, decCharsAux_zero]
            simp only [List.foldl_nil, List.length_nil, pow_zero, mul_one, pow_succ,
              pow_zero, one_mul]
            have : (k + 1) % 10 = k + 1 := Nat.mod_eq_of_lt hk
            omega
          · have hq1 : 0 < (k + 1) / 10 := Nat.pos_of_ne_zero hq
            have hlt : (k + 1) / 10 < k + 1 := Nat.div_lt_self hn (by norm_num)
            have hq2 : (k + 1) / 10 ≤ fuel := by omega
            rw [ih ((k + 1) / 10) a hq1 hq2]
            have hdm := Nat.div_add_mod (k + 1) 10
            rw [pow_succ, ← mul_assoc]
            set B := a * 10 ^ (decCharsAux fuel ((k + 1) / 10)).length
            omega

theorem takeWhile_of_all {p : Char → Bool} : ∀ {l : List Char},
    (∀ c ∈ l, p c = true) → l.takeWhile p = l := by
  intro l
  induction l with
  | nil => intro _; rfl
  | cons c t ih =>
      intro h
      rw [List.takeWhile_cons, h c (List.mem_cons_self c t)]
      simp [ih (fun x hx => h x (List.mem_cons_of_mem c hx))]

theorem parseDigitPrefix_decChars (n : Nat) :
    parseDigitPrefix (decChars n) = some n := by
  unfold parseDigitPrefix
  have hall : ∀ c ∈ decChars n, c.isDigit = true := by
    intro c hc
    obtain ⟨d, hd, rfl⟩ := decChars_all_digits n c hc
    exact digitChar_isDigit d hd
  rw [takeWhile_of_all hall]
  have hne : ¬ (decChars n).isEmpty = true := by
    cases hl : decChars n
    · exact absurd hl (decChars_ne_nil n)
    · simp
  rw [if_neg hne]
  by_cases h0 : n = 0
  · subst h0
    rfl
  · unfold decChars
    rw [if_neg h0]
    rw [parse_decCharsAux n n 0 (Nat.pos_of_ne_zero h0) le_rfl]
    simp

theorem jsParseInt_decChars (n : Nat) :
    jsParseInt (decChars n) = some (n : Int) := by
  obtain ⟨c, t, hl⟩ : ∃ c t, decChars n = c :: t := by
    cases hl : decChars n
    · exact absurd hl (decChars_ne_nil n)
    · exact ⟨_, _, rfl⟩
  obtain ⟨d, hd, hc⟩ := decChars_all_digits n c (by rw [hl]; exact List.mem_cons_self c t)
  obtain ⟨hdot, hsp, hminus, hplus⟩ := digitChar_props d hd
  unfold jsParseInt
  have hdrop : (decChars n).dropWhile isJsSpace = decChars n := by
    rw [hl, List.dropWhile_cons, hc, hsp]
    simp
  rw [hdrop]
  have hh1 : ¬ (decChars n).head? = some '-' := by
    rw [hl]
    simp only [List.head?_cons, Option.some_inj]
    rw [hc]
    exact hminus
  have hh2 : ¬ (decChars n).head? = some '+' := by
    rw [hl]
    simp only [List.head?_cons, Option.some_inj]
    rw [hc]
    exact hplus
  rw [if_neg hh1, if_neg hh2, parseDigitPrefix_decChars]
  rfl

theorem splitDot_cons (c : Char) (cs : List Char) :
    splitDot (c :: cs)
      = match splitDot cs with
        | [] => [[]]
        | h :: t => if c = '.' then [] :: h :: t else (c :: h) :: t := by
  simp only [splitDot]

theorem splitDot_ne_nil (l : List Char) : splitDot l ≠ [] := by
  induction l with
  | nil => simp [splitDot]
  | cons c cs ih =>
      rw [splitDot_cons]
      cases h : splitDot cs with
      | nil => exact absurd h ih
      | cons hd tl =>
          by_cases hc : c = '.' <;> simp [hc]

theorem splitDot_no_dot (l : List Char) (h : ∀ c ∈ l, c ≠ '.') : splitDot l = [l] := by
  induction l with
  | nil => rfl
  | cons c cs ih =>
      rw [splitDot_cons, ih (fun x hx => h x (List.mem_cons_of_mem c hx))]
      show (if c = '.' then [] :: cs :: [] else (c :: cs) :: ([] : List (List Char)))
        = [c :: cs]
      rw [if_neg (h c (List.mem_cons_self c cs))]

theorem splitDot_append (a b : List Char) (ha : ∀ c ∈ a, c ≠ '.') :
    splitDot (a ++ '.' :: b) = a :: splitDot b := by
  induction a with
  | nil =>
      simp only [List.nil_append]
      rw [splitDot_cons]
      cases h : splitDot b with
      | nil => exact absurd h (splitDot_ne_nil b)
      | cons hd tl => simp
  | cons c a2 ih =>
      have ih2 := ih (fun x hx => ha x (List.mem_cons_of_mem c hx))
      simp only [List.cons_append]
      rw [splitDot_cons, ih2]
      show (if c = '.' then [] :: a2 :: splitDot b else (c :: a2) :: splitDot b)
        = (c :: a2) :: splitDot b
      rw [if_neg (ha c (List.mem_cons_self c a2))]

theorem decChars_no_dot (n : Nat) : ∀ c ∈ decChars n, c ≠ '.' := by
  intro c hc
  obtain ⟨d, hd, rfl⟩ := decChars_all_digits n c hc
  exact (digitChar_props d hd).1

theorem generateSessionToken_data (p s : Nat) :
    (generateSessionToken p (s : Int)).data = decChars p ++ '.' :: decChars s := by
  show (natToDecString p ++ "." ++ intToDecString (Int.ofNat s)).data = _
  have h1 : intToDecString (Int.ofNat s) = natToDecString s := rfl
  rw [h1]
  rw [String.data_append, String.data_append]
  have hp : (natToDecString p).data = decChars p := rfl
  have hs : (natToDecString s).data = decChars s := rfl
  have hdot : ("." : String).data = ['.'] := rfl
  rw [hp, hs, hdot, List.append_assoc]
  rfl

theorem parseSessionToken_roundtrip (p s : Nat)
    (hp0 : 0 < p) (hp : p < MAX_SAFE_INTEGER)
    (hs0 : 0 < s) (hs : s < MAX_SAFE_INTEGER)
    (hlen : (generateSessionToken p (s : Int)).length ≤ 50) :
    parseSessionToken (generateSessionToken p (s : Int)) = some ((p : Int), (s : Int)) := by
  unfold parseSessionToken
  rw [if_neg (by omega)]
  have hsplit : splitDot (generateSessionToken p (s : Int)).data
      = [decChars p, decChars s] := by
    rw [generateSessionToken_data, splitDot_append _ _ (decChars_no_dot p),
      splitDot_no_dot _ (decChars_no_dot s)]
  rw [hsplit]
  have h1 : (0 : Int) < (p : Int) := by exact_mod_cast hp0
  have h2 : (p : Int) < ((MAX_SAFE_INTEGER : Nat) : Int) := by exact_mod_cast hp
  have h3 : (0 : Int) < (s : Int) := by exact_mod_cast hs0
  have h4 : (s : Int) < ((MAX_SAFE_INTEGER : Nat) : Int) := by exact_mod_cast hs
  simp [jsParseInt_decChars, h1, h2, h3, h4]

theorem parseSessionToken_long (tok : String) (h : tok.length > 50) :
    parseSessionToken tok = none := by
  unfold parseSessionToken
  rw [if_pos h]

theorem parseSessionToken_parts (tok : String)
    (h : (splitDot tok.data).length ≠ 2) :
    parseSessionToken tok = none := by
  unfold parseSessionToken
  by_cases hl : tok.length > 50
  · rw [if_pos hl]
  · rw [if_neg hl]
    cases hp : jsParseInt ((splitDot tok.data).getD 0 []) with
    | none =>
        cases hq : jsParseInt ((splitDot tok.data).getD 1 []) with
        | none => rfl
        | some qv => rfl
    | some pv =>
        cases hq : jsParseInt ((splitDot tok.data).getD 1 []) with
        | none => rfl
        | some qv => simp [h]

theorem parseSessionToken_sound (tok : String) (q1 q2 : Int)
    (h : parseSessionToken tok = some (q1, q2)) :
    0 < q1 ∧ q1 < ((MAX_SAFE_INTEGER : Nat) : Int)
    ∧ 0 < q2 ∧ q2 < ((MAX_SAFE_INTEGER : Nat) : Int) := by
  unfold parseSessionToken at h
  by_cases hl : tok.length > 50
  · rw [if_pos hl] at h
    exact absurd h (by simp)
  · rw [if_neg hl] at h
    cases hp : jsParseInt ((splitDot tok.data).getD 0 []) with
    | none =>
        rw [hp] at h
        cases hq : jsParseInt ((splitDot tok.data).getD 1 []) with
        | none => rw [hq] at h; exact absurd h (by simp)
        | some qv => rw [hq] at h; exact absurd h (by simp)
    | some pv =>
        rw [hp] at h
        cases hq : jsParseInt ((splitDot tok.data).getD 1 []) with
        | none => rw [hq] at h; exact absurd h (by simp)
        | some qv =>
            rw [hq] at h
            dsimp only at h
            by_cases hc : (pv > 0 && pv < ((MAX_SAFE_INTEGER : Nat) : Int) && qv > 0
                && qv < ((MAX_SAFE_INTEGER : Nat) : Int)
                && ((splitDot tok.data).length == 2)) = true
            · rw [if_pos hc] at h
              have h2 : (pv, qv) = (q1, q2) := Option.some_inj.mp h
              have h5 : pv = q1 := congrArg Prod.fst h2
              have h6 : qv = q2 := congrArg Prod.snd h2
              subst h5
              subst h6
              simp only [Bool.and_eq_true, decide_eq_true_eq] at hc
              exact ⟨hc.1.1.1.1, hc.1.1.1.2, hc.1.1.2, hc.1.2⟩
            · rw [if_neg hc] at h
              exact absurd h (by simp)

/-- C9 counterexample: the string "12abc.34" is not two positive integers,
yet _parseSessionToken accepts it as {peerId 12, sequenceId 34}, because
JavaScript parseInt reads the longest leading digit prefix and ignores the
rest. -/
theorem parse_malformed_accepted_cex :
    parseSessionToken "12abc.34" = some (12, 34)
  ∧ ("12abc.34" : String).length ≤ 50 := by
  constructor
  · rfl
  · decide

/-- C9 (amended): encoding then decoding a session token made of two
positive integers below Number.MAX_SAFE_INTEGER (and at most 50 characters)
is the identity; strings longer than 50 characters, or that do not split
on '.' into exactly two parts, decode to none; every accepted token yields
two positive integers in safe range — but a part is accepted whenever it
merely starts with digits (parseInt semantics), so garbage suffixes are
tolerated. -/
theorem session_token_contract (p s : Nat)
    (hp0 : 0 < p) (hp : p < MAX_SAFE_INTEGER) (hs0 : 0 < s) (hs : s < MAX_SAFE_INTEGER)
    (hlen : (generateSessionToken p (s : Int)).length ≤ 50) :
    parseSessionToken (generateSessionToken p (s : Int)) = some ((p : Int), (s : Int))
  ∧ (∀ tok : String, 50 < tok.length → parseSessionToken tok = none)
  ∧ (∀ tok : String, (splitDot tok.data).length ≠ 2 → parseSessionToken tok = none)
  ∧ (∀ (tok : String) (q1 q2 : Int), parseSessionToken tok = some (q1, q2) →
      0 < q1 ∧ q1 < ((MAX_SAFE_INTEGER : Nat) : Int)
      ∧ 0 < q2 ∧ q2 < ((MAX_SAFE_INTEGER : Nat) : Int)) :=
  ⟨parseSessionToken_roundtrip p s hp0 hp hs0 hs hlen,
   fun tok h => parseSessionToken_long tok h,
   fun tok h => parseSessionToken_parts tok h,
   fun tok q1 q2 h => parseSessionToken_sound tok q1 q2 h⟩

theorem session_token_contract_witness :
    parseSessionToken (generateSessionToken 1800 ((1 : Nat) : Int))
      = some (((1800 : Nat) : Int), ((1 : Nat) : Int)) :=
  (session_token_contract 1800 1 (by decide) (by decide) (by decide) (by decide)
    (by decide)).1

theorem lookup_entrywise (g : Nat → PeerStat → PeerStat) (l : List (Nat × PeerStat))
    (q : Nat) :
    List.lookup q (l.map (fun e => (e.1, g e.1 e.2))) = (List.lookup q l).map (g q) := by
  induction l with
  | nil => rfl
  | cons e t ih =>
      obtain ⟨a, b⟩ := e
      by_cases h : q = a
      · subst h
        simp [List.lookup]
      · have hb : (q == a) = false := by simpa using h
        simp [List.lookup, hb, ih]

theorem updateStat_entrywise (p : Nat) (f : PeerStat → PeerStat)
    (l : List (Nat × PeerStat)) :
    updateStat p f l = l.map (fun e => (e.1, if e.1 = p then f e.2 else e.2)) := by
  induction l with
  | nil => rfl
  | cons e t ih =>
      show (if e.1 = p then (e.1, f e.2) else e) :: updateStat p f t = _
      rw [List.map_cons, ih]
      congr 1
      split
      · rfl
      · rfl

theorem lookup_updateStat (p q : Nat) (f : PeerStat → PeerStat)
    (l : List (Nat × PeerStat)) :
    List.lookup q (updateStat p f l)
      = (List.lookup q l).map (fun v => if q = p then f v else v) := by
  rw [updateStat_entrywise]
  exact lookup_entrywise (fun k v => if k = p then f v else v) l q

theorem onSyncedUpd_fields (p : Nat) (s : NodeState) :
    (onSyncedUpd p s).peerStats = s.peerStats
  ∧ (onSyncedUpd p s).shadow = s.shadow
  ∧ (onSyncedUpd p s).pending = s.pending := by
  unfold onSyncedUpd
  by_cases h1 : s.peerStartedNotSynced = []
  · rw [if_pos h1]
    exact ⟨rfl, rfl, rfl⟩
  · rw [if_neg h1]
    cases h2 : List.lookup p s.peerStats with
    | none => exact ⟨rfl, rfl, rfl⟩
    | some st =>
        dsimp only
        split
        · exact ⟨rfl, rfl, rfl⟩
        · exact ⟨rfl, rfl, rfl⟩

theorem detect_stores (now : Nat) (msg : Patch) (s : NodeState) :
    (detectMissingSequenceIds now msg s).shadow = s.shadow
  ∧ (detectMissingSequenceIds now msg s).pending = s.pending := by
  unfold detectMissingSequenceIds
  dsimp only
  cases h : List.lookup msg.peer s.peerStats with
  | none => exact ⟨rfl, rfl⟩
  | some st0 =>
      dsimp only
      split
      · exact ⟨(onSyncedUpd_fields _ _).2.1, (onSyncedUpd_fields _ _).2.2⟩
      · exact ⟨rfl, rfl⟩

theorem detect_peerStats_some (now : Nat) (msg : Patch) (s : NodeState) (st0 : PeerStat)
    (h : List.lookup msg.peer s.peerStats = some st0) :
    (detectMissingSequenceIds now msg s).peerStats
      = updateStat msg.peer (fun _ => detectNewStat now msg st0) s.peerStats := by
  unfold detectMissingSequenceIds
  dsimp only
  rw [h]
  dsimp only
  split
  · exact (onSyncedUpd_fields _ _).1
  · rfl

theorem detectNewStat_lastSeq (now : Nat) (msg : Patch) (st0 : PeerStat) :
    st0.lastSeq ≤ (detectNewStat now msg st0).lastSeq
  ∧ msg.seq ≤ (detectNewStat now msg st0).lastSeq := by
  unfold detectNewStat
  dsimp only
  split <;> split <;> (try dsimp only at *) <;> omega

theorem detectNewStat_guar (now : Nat) (msg : Patch) (st0 : PeerStat)
    (h : st0.guarSeq ≤ st0.lastSeq) :
    (detectNewStat now msg st0).guarSeq ≤ (detectNewStat now msg st0).lastSeq := by
  unfold detectNewStat
  dsimp only
  split <;> split <;> (try dsimp only at *) <;> omega

theorem mem_insertRow (r x : PatchRow) (l : List PatchRow) :
    x ∈ insertRow r l ↔ x = r ∨ x ∈ l := by
  induction l with
  | nil => simp [insertRow]
  | cons y ys ih =>
      unfold insertRow
      split
      · simp
      · simp only [List.mem_cons, ih]
        tauto

theorem mem_sortRows (l : List PatchRow) (x : PatchRow) :
    x ∈ sortRows l ↔ x ∈ l := by
  induction l with
  | nil => simp [sortRows]
  | cons a t ih =>
      show x ∈ insertRow a (sortRows t) ↔ _
      rw [mem_insertRow]
      simp only [List.mem_cons, ih]

theorem gapsOf_mem (l : List PatchRow) :
    ∀ g ∈ gapsOf l, ∃ r ∈ l, r.peer = g.peerId ∧ r.seq = g.sequenceId
      ∧ r.rowAt = g.patchedAt := by
  induction l with
  | nil => intro g hg; simp [gapsOf] at hg
  | cons a t ih =>
      intro g hg
      cases t with
      | nil => simp [gapsOf] at hg
      | cons b t2 =>
          rw [gapsOf] at hg
          rcases List.mem_append.mp hg with hg | hg
          · by_cases hc : a.peer = b.peer ∧ b.seq - a.seq - 1 > 0
            · rw [if_pos hc] at hg
              rw [List.mem_singleton] at hg
              subst hg
              exact ⟨a, List.mem_cons_self a _, rfl, rfl, rfl⟩
            · rw [if_neg hc] at hg
              simp at hg
          · obtain ⟨r, hr, hrr⟩ := ih g hg
            exact ⟨r, List.mem_cons_of_mem a hr, hrr⟩

theorem listMissing_mem (my fromTs : Nat) (rows : List PatchRow) :
    ∀ g ∈ listMissingSequenceIds my fromTs rows,
      ∃ r ∈ rows, r.peer = g.peerId ∧ r.seq = g.sequenceId ∧ r.rowAt = g.patchedAt := by
  intro g hg
  unfold listMissingSequenceIds at hg
  obtain ⟨r, hr, hrr⟩ := gapsOf_mem _ g hg
  rw [mem_sortRows] at hr
  exact ⟨r, List.mem_of_mem_filter hr, hrr⟩

theorem scanFold_lookup (gaps : List GapInfo) :
    ∀ (st : List (Nat × PeerStat)) (seen : List Nat) (q : Nat) (v : PeerStat),
    List.lookup q (gaps.foldl scanFoldStep (st, seen)).1 = some v →
    ∃ w, List.lookup q st = some w ∧
      (v = w ∨ ∃ g, g ∈ gaps ∧ g.peerId = q
        ∧ v = { w with guarAt := g.patchedAt, guarSeq := g.sequenceId }) := by
  induction gaps with
  | nil =>
      intro st seen q v h
      exact ⟨v, h, Or.inl rfl⟩
  | cons g gs ih =>
      intro st seen q v h
      rw [List.foldl_cons] at h
      by_cases hc : (List.lookup g.peerId st).isSome = true ∧ ¬ g.peerId ∈ seen
      · have hstep : scanFoldStep (st, seen) g
            = (updateStat g.peerId
                (fun v => { v with guarAt := g.patchedAt, guarSeq := g.sequenceId }) st,
               g.peerId :: seen) := by
          unfold scanFoldStep
          dsimp only
          rw [if_pos hc]
        rw [hstep] at h
        obtain ⟨w1, hw1, hrel⟩ := ih _ _ q v h
        rw [lookup_updateStat] at hw1
        cases hw0 : List.lookup q st with
        | none => rw [hw0] at hw1; simp at hw1
        | some w0 =>
            rw [hw0] at hw1
            have hw1b : (if q = g.peerId then
                { w0 with guarAt := g.patchedAt, guarSeq := g.sequenceId } else w0) = w1 := by
              simpa using hw1
            refine ⟨w0, rfl, ?_⟩
            by_cases hq : q = g.peerId
            · rw [if_pos hq] at hw1b
              rcases hrel with rfl | hrel2
              · right
                exact ⟨g, List.mem_cons_self g gs, hq.symm, hw1b.symm⟩
              · obtain ⟨g2, hg2, hgq, hveq⟩ := hrel2
                right
                refine ⟨g2, List.mem_cons_of_mem g hg2, hgq, ?_⟩
                rw [hveq, ← hw1b]
            · rw [if_neg hq] at hw1b
              rcases hrel with rfl | hrel2
              · exact Or.inl hw1b.symm
              · obtain ⟨g2, hg2, hgq, hveq⟩ := hrel2
                right
                refine ⟨g2, List.mem_cons_of_mem g hg2, hgq, ?_⟩
                rw [hveq, ← hw1b]
      · have hstep : scanFoldStep (st, seen) g = (st, seen) := by
          unfold scanFoldStep
          dsimp only
          rw [if_neg hc]
        rw [hstep] at h
        obtain ⟨w, hw, hrel⟩ := ih _ _ q v h
        refine ⟨w, hw, ?_⟩
        rcases hrel with h1 | ⟨g2, hg2, hrest⟩
        · exact Or.inl h1
        · exact Or.inr ⟨g2, List.mem_cons_of_mem g hg2, hrest⟩

theorem lookup_scanSecond (seen : List Nat) (l : List (Nat × PeerStat)) (q : Nat) :
    List.lookup q (l.map (fun e => if e.1 ∈ seen then e
      else (e.1, { e.2 with guarAt := e.2.lastAt, guarSeq := e.2.lastSeq })))
    = (List.lookup q l).map (fun v => if q ∈ seen then v
        else { v with guarAt := v.lastAt, guarSeq := v.lastSeq }) := by
  induction l with
  | nil => rfl
  | cons e t ih =>
      obtain ⟨a, b⟩ := e
      rw [List.map_cons]
      by_cases hs : a ∈ seen
      · rw [if_pos hs]
        by_cases hq : q = a
        · subst hq
          simp [List.lookup, hs]
        · have hb : (q == a) = false := by simpa using hq
          simp [List.lookup, hb, ih]
      · rw [if_neg hs]
        by_cases hq : q = a
        · subst hq
          simp [List.lookup, hs]
        · have hb : (q == a) = false := by simpa using hq
          simp [List.lookup, hb, ih]

/-- What one gap scan does to one peer's stat entry: the last-seen pair is
never touched, and the guaranteed-contiguous sequence id ends up equal
either to the last-seen sequence id, or to its old value, or to the
sequence id of some row of the missing list. -/
theorem scan_lookup (my fromTs : Nat) (s : NodeState) (q : Nat) (v : PeerStat)
    (h : List.lookup q (getMissingPatches my fromTs s).peerStats = some v) :
    ∃ w, List.lookup q s.peerStats = some w ∧ v.lastSeq = w.lastSeq ∧
      (v.guarSeq = v.lastSeq
       ∨ v.guarSeq = w.guarSeq
       ∨ ∃ g, g ∈ listMissingSequenceIds my fromTs (allRows s) ∧ g.peerId = q
           ∧ v.guarSeq = g.sequenceId) := by
  unfold getMissingPatches at h
  dsimp only at h
  rw [lookup_scanSecond] at h
  cases hv1 : List.lookup q
      ((listMissingSequenceIds my fromTs (allRows s)).foldl scanFoldStep
        (s.peerStats, [])).1 with
  | none => rw [hv1] at h; simp at h
  | some v1 =>
      rw [hv1] at h
      have hv : (if q ∈ ((listMissingSequenceIds my fromTs (allRows s)).foldl scanFoldStep
          (s.peerStats, [])).2 then v1
          else { v1 with guarAt := v1.lastAt, guarSeq := v1.lastSeq }) = v := by
        simpa using h
      obtain ⟨w, hw, hrel⟩ := scanFold_lookup _ _ _ q v1 hv1
      refine ⟨w, hw, ?_⟩
      by_cases hseen : q ∈ ((listMissingSequenceIds my fromTs (allRows s)).foldl scanFoldStep
          (s.peerStats, [])).2
      · rw [if_pos hseen] at hv
        subst hv
        rcases hrel with rfl | ⟨g, hg, hgq, hveq⟩
        · exact ⟨rfl, Or.inr (Or.inl rfl)⟩
        · refine ⟨by rw [hveq], Or.inr (Or.inr ⟨g, hg, hgq, by rw [hveq]⟩)⟩
      · rw [if_neg hseen] at hv
        subst hv
        rcases hrel with rfl | ⟨g, hg, hgq, hveq⟩
        · exact ⟨rfl, Or.inl rfl⟩
        · exact ⟨by rw [hveq], Or.inl rfl⟩

theorem mem_allRows_addPending (s : NodeState) (p : Patch) (r : PatchRow) :
    r ∈ allRows { s with pending := s.pending ++ [p] }
      ↔ r ∈ allRows s ∨ r = { peer := p.peer, seq := p.seq, rowAt := p.patchAt } := by
  simp only [allRows, List.map_append, List.mem_append, List.map_cons, List.map_nil,
    List.mem_singleton]
  tauto

theorem mem_allRows_addShadow (s : NodeState) (tab : String) (p : Patch) (r : PatchRow) :
    r ∈ allRows { s with shadow := s.shadow ++ [(tab, p)] }
      ↔ r ∈ allRows s ∨ r = { peer := p.peer, seq := p.seq, rowAt := p.patchAt } := by
  simp only [allRows, List.map_append, List.mem_append, List.map_cons, List.map_nil,
    List.mem_singleton]
  tauto

theorem lookup_initStats (peers : List Nat) (q : Nat) (st : PeerStat)
    (h : List.lookup q (peers.map (fun p => (p, peerStatInit))) = some st) :
    st = peerStatInit := by
  induction peers with
  | nil => simp at h
  | cons a t ih =>
      rw [List.map_cons] at h
      by_cases hq : q = a
      · subst hq
        simp [List.lookup] at h
        exact h.symm
      · have hb : (q == a) = false := by simpa using hq
        rw [List.lookup, hb] at h
        exact ih h

theorem nodeInit_statInv (peers : List Nat) (tables : List String) :
    statInv (nodeInit peers tables) := by
  intro p st h
  have h2 : st = peerStatInit := lookup_initStats peers p st h
  subst h2
  refine ⟨le_refl _, ?_⟩
  intro r hr
  simp [allRows, nodeInit] at hr

/-- The peer-stat update of _detectMissingSequenceIds keeps the invariant,
assuming every persisted row is bounded by its peer's last-seen sequence
except possibly rows carrying the incoming message's own sequence (the
shape produced by saving the message's patch just before the stats
update). -/
theorem detect_statInv_aux (now : Nat) (msg : Patch) (s : NodeState)
    (h : ∀ p st, List.lookup p s.peerStats = some st →
      st.guarSeq ≤ st.lastSeq ∧ ∀ r ∈ allRows s, r.peer = p →
        (r.seq ≤ st.lastSeq ∨ (r.peer = msg.peer ∧ r.seq = msg.seq))) :
    statInv (detectMissingSequenceIds now msg s) := by
  intro q st hq
  have hrows : allRows (detectMissingSequenceIds now msg s) = allRows s := by
    unfold allRows
    rw [(detect_stores now msg s).1, (detect_stores now msg s).2]
  cases h0 : List.lookup msg.peer s.peerStats with
  | none =>
      have hsp : (detectMissingSequenceIds now msg s).peerStats = s.peerStats := by
        rw [detectMissing_unknown now msg s h0]
      rw [hsp] at hq
      obtain ⟨h1, h2⟩ := h q st hq
      refine ⟨h1, ?_⟩
      intro r hr hrp
      rw [hrows] at hr
      rcases h2 r hr hrp with h3 | ⟨hpeer, _⟩
      · exact h3
      · have hqp : q = msg.peer := by rw [← hrp, hpeer]
        rw [← hqp] at h0
        rw [hq] at h0
        exact absurd h0 (by simp)
  | some st0 =>
      rw [detect_peerStats_some now msg s st0 h0, lookup_updateStat] at hq
      cases hw : List.lookup q s.peerStats with
      | none => rw [hw] at hq; simp at hq
      | some w =>
          rw [hw] at hq
          have hq2 : (if q = msg.peer then detectNewStat now msg st0 else w) = st := by
            simpa using hq
          by_cases hqm : q = msg.peer
          · have hws : w = st0 := by
              rw [hqm] at hw
              rw [hw] at h0
              exact Option.some_inj.mp h0
            rw [if_pos hqm] at hq2
            obtain ⟨hg0, hrows0⟩ := h msg.peer st0 h0
            constructor
            · rw [← hq2]
              exact detectNewStat_guar now msg st0 hg0
            · intro r hr hrp
              rw [hrows] at hr
              rw [← hq2]
              have hm1 := (detectNewStat_lastSeq now msg st0).1
              have hm2 := (detectNewStat_lastSeq now msg st0).2
              rcases hrows0 r hr (by rw [hrp, hqm]) with h3 | ⟨_, hseq⟩
              · omega
              · omega
          · rw [if_neg hqm] at hq2
            obtain ⟨hg0, hrows0⟩ := h q w hw
            subst hq2
            refine ⟨hg0, ?_⟩
            intro r hr hrp
            rw [hrows] at hr
            rcases hrows0 r hr hrp with h3 | ⟨hpeer, _⟩
            · exact h3
            · exact absurd (by rw [← hrp, hpeer] : q = msg.peer) hqm

theorem statInv_debounceUpd (tab : String) (a : Nat) (x : NodeState)
    (h : statInv x) : statInv (debounceUpd tab a x) := by
  intro q st hq
  obtain ⟨hg, hr⟩ := h q st hq
  exact ⟨hg, fun r hrr hrp => hr r hrr hrp⟩

theorem scan_statInv (my fromTs : Nat) (s : NodeState) (h : statInv s) :
    statInv (getMissingPatches my fromTs s) := by
  intro q st hq
  obtain ⟨w, hw, hlast, hguar⟩ := scan_lookup my fromTs s q st hq
  have hrows : allRows (getMissingPatches my fromTs s) = allRows s := rfl
  obtain ⟨hwg, hwr⟩ := h q w hw
  constructor
  · rcases hguar with h1 | h1 | ⟨g, hg, hgq, hgs⟩
    · omega
    · omega
    · obtain ⟨r, hrm, hrp, hrs, _⟩ := listMissing_mem my fromTs (allRows s) g hg
      have := hwr r hrm (by rw [hrp, hgq])
      omega
  · intro r hr hrp
    rw [hrows] at hr
    have := hwr r hr hrp
    omega

theorem onPatch_statInv (my dbVer now : Nat) (p : Patch) (s : NodeState)
    (h : statInv s) : statInv (onPatchReceivedFromPeers my dbVer now p s) := by
  unfold onPatchReceivedFromPeers
  by_cases h1 : p.peer = my
  · rw [if_pos h1]; exact h
  · rw [if_neg h1]
    by_cases h2 : p.ver ≠ dbVer
    · rw [if_pos h2]
      apply detect_statInv_aux
      intro q st hq
      obtain ⟨hg, hrows⟩ := h q st hq
      refine ⟨hg, ?_⟩
      intro r hr hrp
      rcases (mem_allRows_addPending s p r).mp hr with hr2 | hr2
      · exact Or.inl (hrows r hr2 hrp)
      · exact Or.inr ⟨by rw [hr2], by rw [hr2]⟩
    · rw [if_neg h2]
      by_cases h3 : p.tab = "_"
      · rw [if_pos h3]
        apply detect_statInv_aux
        intro q st hq
        obtain ⟨hg, hrows⟩ := h q st hq
        refine ⟨hg, ?_⟩
        intro r hr hrp
        rcases (mem_allRows_addPending s p r).mp hr with hr2 | hr2
        · exact Or.inl (hrows r hr2 hrp)
        · exact Or.inr ⟨by rw [hr2], by rw [hr2]⟩
      · rw [if_neg h3]
        by_cases h4 : p.tab ∈ s.tables
        · rw [if_pos h4]
          apply statInv_debounceUpd
          apply detect_statInv_aux
          intro q st hq
          obtain ⟨hg, hrows⟩ := h q st hq
          refine ⟨hg, ?_⟩
          intro r hr hrp
          rcases (mem_allRows_addShadow s p.tab p r).mp hr with hr2 | hr2
          · exact Or.inl (hrows r hr2 hrp)
          · exact Or.inr ⟨by rw [hr2], by rw [hr2]⟩
        · rw [if_neg h4]
          exact h

theorem nodeStep_statInv (my dbVer : Nat) (op : NodeOp) (s : NodeState)
    (h : statInv s) : statInv (nodeStep my dbVer op s) := by
  cases op with
  | patchMsg now p => exact onPatch_statInv my dbVer now p s h
  | pingMsg now p =>
      apply detect_statInv_aux
      intro q st hq
      obtain ⟨hg, hrows⟩ := h q st hq
      exact ⟨hg, fun r hr hrp => Or.inl (hrows r hr hrp)⟩
  | scan fromTs => exact scan_statInv my fromTs s h

theorem nodeRun_statInv_from (my dbVer : Nat) (ops : List NodeOp) :
    ∀ s : NodeState, statInv s → statInv (nodeRun my dbVer ops s) := by
  induction ops with
  | nil => intro s h; exact h
  | cons op t ih =>
      intro s h
      show statInv (nodeRun my dbVer t (nodeStep my dbVer op s))
      exact ih _ (nodeStep_statInv my dbVer op s h)

theorem debounceUpd_peerStats (tab : String) (a : Nat) (x : NodeState) :
    (debounceUpd tab a x).peerStats = x.peerStats := rfl

theorem detect_lastSeq_mono (now : Nat) (msg : Patch) (s : NodeState) (q : Nat)
    (st st' : PeerStat)
    (h : List.lookup q s.peerStats = some st)
    (h' : List.lookup q (detectMissingSequenceIds now msg s).peerStats = some st') :
    st.lastSeq ≤ st'.lastSeq := by
  cases h0 : List.lookup msg.peer s.peerStats with
  | none =>
      rw [detectMissing_unknown now msg s h0] at h'
      dsimp only at h'
      rw [h] at h'
      rw [Option.some_inj.mp h']
  | some st0 =>
      rw [detect_peerStats_some now msg s st0 h0, lookup_updateStat, h] at h'
      have h2 : (if q = msg.peer then detectNewStat now msg st0 else st) = st' := by
        simpa using h'
      by_cases hq : q = msg.peer
      · rw [if_pos hq] at h2
        have hst : st = st0 := by
          rw [hq] at h
          rw [h] at h0
          exact Option.some_inj.mp h0
        rw [hst, ← h2]
        exact (detectNewStat_lastSeq now msg st0).1
      · rw [if_neg hq] at h2
        rw [h2]

theorem scan_lastSeq_mono (my fromTs : Nat) (s : NodeState) (q : Nat) (st st' : PeerStat)
    (h : List.lookup q s.peerStats = some st)
    (h' : List.lookup q (getMissingPatches my fromTs s).peerStats = some st') :
    st.lastSeq ≤ st'.lastSeq := by
  obtain ⟨w, hw, hlast, _⟩ := scan_lookup my fromTs s q st' h'
  rw [hw] at h
  rw [Option.some_inj.mp h] at hlast
  omega

theorem nodeStep_lastSeq_mono (my dbVer : Nat) (op : NodeOp) (s : NodeState) (q : Nat)
    (st st' : PeerStat)
    (h : List.lookup q s.peerStats = some st)
    (h' : List.lookup q (nodeStep my dbVer op s).peerStats = some st') :
    st.lastSeq ≤ st'.lastSeq := by
  cases op with
  | pingMsg now p => exact detect_lastSeq_mono now p s q st st' h h'
  | scan fromTs => exact scan_lastSeq_mono my fromTs s q st st' h h'
  | patchMsg now p =>
      have hstep : nodeStep my dbVer (NodeOp.patchMsg now p) s
          = onPatchReceivedFromPeers my dbVer now p s := rfl
      rw [hstep] at h'
      unfold onPatchReceivedFromPeers at h'
      by_cases h1 : p.peer = my
      · rw [if_pos h1, h] at h'
        rw [Option.some_inj.mp h']
      · rw [if_neg h1] at h'
        by_cases h2 : p.ver ≠ dbVer
        · rw [if_pos h2] at h'
          exact detect_lastSeq_mono now p { s with pending := s.pending ++ [p] } q st st' h h'
        · rw [if_neg h2] at h'
          by_cases h3 : p.tab = "_"
          · rw [if_pos h3] at h'
            exact detect_lastSeq_mono now p { s with pending := s.pending ++ [p] } q st st' h h'
          · rw [if_neg h3] at h'
            by_cases h4 : p.tab ∈ s.tables
            · rw [if_pos h4] at h'
              dsimp only at h'
              rw [debounceUpd_peerStats] at h'
              exact detect_lastSeq_mono now p { s with shadow := s.shadow ++ [(p.tab, p)] } q st st' h h'
            · rw [if_neg h4, h] at h'
              rw [Option.some_inj.mp h']

/-- C4 (corrected).  After any sequence of inbound PATCH/PING processing
steps and gap scans starting from a freshly migrated node, every tracked
peer satisfies GUARANTEED_CONTIGUOUS_SEQUENCE_ID ≤ LAST_SEQUENCE_ID; and
LAST_SEQUENCE_ID is monotonically non-decreasing across every single step.
(The claimed monotonicity of GUARANTEED_CONTIGUOUS_SEQUENCE_ID is false:
see the gap-scan counterexample.) -/
theorem peer_stat_invariant (my dbVer : Nat) (peers : List Nat) (tables : List String)
    (ops : List NodeOp) :
    (∀ p st,
      List.lookup p (nodeRun my dbVer ops (nodeInit peers tables)).peerStats = some st →
      st.guarSeq ≤ st.lastSeq)
  ∧ (∀ op (s : NodeState) q st st',
      List.lookup q s.peerStats = some st →
      List.lookup q (nodeStep my dbVer op s).peerStats = some st' →
      st.lastSeq ≤ st'.lastSeq) := by
  constructor
  · intro p st h
    exact ((nodeRun_statInv_from my dbVer ops (nodeInit peers tables)
      (nodeInit_statInv peers tables)) p st h).1
  · intro op s q st st' h h'
    exact nodeStep_lastSeq_mono my dbVer op s q st st' h h'

/-- Witness for C4: on the concrete three-operation run (two patches from
peer 2 then a gap scan from timestamp 200) the tracked stat satisfies the
guarantee bound. -/
theorem peer_stat_invariant_witness :
    (⟨300, 3, 300, 3, 0⟩ : PeerStat).guarSeq ≤ (⟨300, 3, 300, 3, 0⟩ : PeerStat).lastSeq :=
  (peer_stat_invariant 1 1 [2] ["t"] scanOpsPrefix).1 2 ⟨300, 3, 300, 3, 0⟩ (by decide)

/-- Counterexample for C4 as stated: GUARANTEED_CONTIGUOUS_SEQUENCE_ID is
not monotone.  Peer 2 sends seq 1 (patchedAt 100) and seq 3 (patchedAt
300); a gap scan from timestamp 200 sees only seq 3 and raises the
guarantee to 3; a later scan from 0 sees the 1→3 gap and rewrites the
guarantee down to 1. -/
theorem scan_lowers_guarantee_cex :
    ∃ st st' : PeerStat,
      List.lookup 2 (nodeRun 1 1 scanOpsPrefix (nodeInit [2] ["t"])).peerStats = some st
    ∧ List.lookup 2 (nodeRun 1 1 scanOpsFull (nodeInit [2] ["t"])).peerStats = some st'
    ∧ st'.guarSeq < st.guarSeq :=
  ⟨⟨300, 3, 300, 3, 0⟩, ⟨300, 3, 100, 1, 0⟩, by decide, by decide, by decide⟩

end ReplicSqlite
